import Mathlib

/-!
Verification of the sleepBackend Oura-sync core against its specification.

This file shallowly embeds the code of the sync/OAuth/token subsystem:

* the Secret Box (token encryption at rest): utils/firestoreUtils.js,
  functions encryptData / decryptData / createOuraClient;
* the OAuth callback handler: server/controllers/userController.js,
  handleOuraOAuthCallback;
* the record mappers: server/controllers/sleepController.js,
  mapOuraDataToSleepData (the strict V2 version) and the legacy
  duck-typed mapper of the earlier controller iteration;
* the sync reconciler: server/controllers/sleepController.js,
  syncOuraData (connection check, token refresh, window selection,
  batch merge-upsert, bookkeeping);
* the summary aggregator write and calculateStreak.

External collaborators (the AES-256-GCM primitive of node:crypto, the
Firestore document store, moment's calendar-month arithmetic, the Oura
HTTP API) are modelled as explicit parameters or as association-list
stores, exactly at the call boundaries the code uses them.

Strings handled character-by-character by the code (the Secret Box's
colon-separated token encoding) are modelled as `List Char`.
Timestamps are integer milliseconds since the Unix epoch; a calendar
day is `t / 86400000` (floor division), matching moment's UTC
startOf-day / endOf-day at millisecond precision.
-/

namespace SleepBackend

set_option autoImplicit false

/-! ## Character-level string plumbing (Secret Box encoding) -/

/-- Character lists standing for JavaScript strings in the Secret Box. -/
abbrev Str := List Char

/-- Worker for `splitOnChar`: the first separator-free chunk and the
remaining chunks. -/
def splitGo (sep : Char) : Str → Str × List Str
  | [] => ([], [])
  | c :: rest =>
      let r := splitGo sep rest
      if c = sep then ([], r.1 :: r.2) else (c :: r.1, r.2)

/-- JavaScript `s.split(sep)` for a one-character separator: the list of
maximal separator-free chunks; adjacent separators yield empty chunks. -/
def splitOnChar (sep : Char) (s : Str) : List Str :=
  (splitGo sep s).1 :: (splitGo sep s).2

/-! ## Secret Box (utils/firestoreUtils.js: encryptData / decryptData)

The AES-256-GCM primitive (node:crypto createCipheriv / createDecipheriv)
is an external collaborator; it is modelled as a bundled cipher whose
encryption maps an IV and a plaintext to hex-encoded ciphertext and auth
tag (hence colon-free outputs), and whose decryption inverts it,
returning `none` when authentication fails.  The string plumbing around
it — the `insecure:` passthrough, the `iv:authTag:ciphertext` encoding,
`split(':')` and `substring(9)` — is the code under verification and is
embedded exactly. -/

/-- Abstract interface of the AES-256-GCM calls made by the Secret Box.
`enc ivHex plaintext` returns `(ciphertextHex, authTagHex)`;
`dec ivHex authTagHex ciphertextHex` returns the plaintext, or `none`
when the tag does not verify. -/
structure GcmCipher where
  enc : Str → Str → Str × Str
  dec : Str → Str → Str → Option Str
  dec_enc : ∀ iv p, dec iv (enc iv p).2 (enc iv p).1 = some p
  enc_ct_noColon : ∀ iv p, ':' ∉ (enc iv p).1
  enc_tag_noColon : ∀ iv p, ':' ∉ (enc iv p).2

/-- Hex alphabet emitted by Buffer.toString of node:crypto outputs. -/
def isHexChar (c : Char) : Bool := c ∈ "0123456789abcdef".data

/-- Prefix marking unencrypted passthrough tokens. -/
def insecureMark : Str := "insecure:".data

/-- Embedding of `encryptData` (utils/firestoreUtils.js).  With no
operator key configured (`keyConfigured = false`) it returns the
plaintext behind the `insecure:` prefix; otherwise it encrypts under a
fresh IV (passed in, since the random IV is an effect) and returns the
string `ivHex : authTagHex : ciphertextHex`. -/
def encryptData (g : GcmCipher) (keyConfigured : Bool) (ivHex : Str) (data : Str) : Str :=
  if !keyConfigured then insecureMark ++ data
  else
    let ec := g.enc ivHex data
    ivHex ++ ':' :: ec.2 ++ ':' :: ec.1

/-- Embedding of `decryptData` (utils/firestoreUtils.js).  `none` stands
for the thrown "Failed to retrieve sensitive data" error (and, in the
unconfigured branch, for `split(':')[1]` being undefined).  With no key
configured it returns `encryptedData.split(':')[1]`; with a key it
returns the raw suffix for `insecure:`-prefixed input without touching
the cipher, and otherwise destructures `iv:authTag:ciphertext` and
authenticates. -/
def decryptData (g : GcmCipher) (keyConfigured : Bool) (s : Str) : Option Str :=
  if !keyConfigured then (splitOnChar ':' s).get? 1
  else if insecureMark.isPrefixOf s then some (s.drop 9)
  else
    match splitOnChar ':' s with
    | ivHex :: authTagHex :: encrypted :: _ => g.dec ivHex authTagHex encrypted
    | _ => none

/-! A concrete `GcmCipher` instance used to evaluate the Secret Box on
explicit inputs: ciphertext is the plaintext with `:` and `!` escaped
(so outputs are colon-free), the tag is a constant.  It satisfies the
interface and stands in for AES-256-GCM in witnesses only. -/

/-- Escape one character into a colon-free fragment. -/
def escChar (c : Char) : Str :=
  if c = ':' then ['!', 'c'] else if c = '!' then ['!', 'e'] else [c]

/-- Escape a plaintext into a colon-free ciphertext. -/
def esc (s : Str) : Str := s.flatMap escChar

/-- Inverse of `esc`. -/
def unesc : Str → Str
  | [] => []
  | [c] => [c]
  | c :: d :: rest =>
      if c = '!' then
        if d = 'c' then ':' :: unesc rest
        else if d = 'e' then '!' :: unesc rest
        else c :: unesc (d :: rest)
      else c :: unesc (d :: rest)

/-- Concrete cipher instance for witnesses.  The proof obligations are
discharged inline: unescaping inverts escaping, and escaped output is
colon-free. -/
def escCipher : GcmCipher where
  enc := fun _ p => (esc p, ['t', 'g'])
  dec := fun _ tag ct => if tag = ['t', 'g'] then some (unesc ct) else none
  dec_enc := by
    intro iv p
    suffices hinv : ∀ s : Str, unesc (esc s) = s by simp [hinv]
    intro s
    induction s with
    | nil => simp [esc, unesc]
    | cons c rest ih =>
        have hre : esc (c :: rest) = escChar c ++ esc rest := by
          simp [esc, List.flatMap]
        by_cases hc : c = ':'
        · subst hc
          simp only [hre, escChar, if_pos rfl, List.cons_append]
          cases h : esc rest with
          | nil => simpa [unesc, h] using ih
          | cons x xs => rw [← h]; simpa [unesc] using ih
        · by_cases he : c = '!'
          · subst he
            simp only [hre, escChar, if_neg hc, if_pos rfl, List.cons_append]
            cases h : esc rest with
            | nil => simpa [unesc, h] using ih
            | cons x xs => rw [← h]; simpa [unesc] using ih
          · simp only [hre, escChar, if_neg hc, if_neg he, List.cons_append,
              List.nil_append]
            cases h : esc rest with
            | nil =>
                have hr : [] = rest := by simpa [h, unesc] using ih
                simp [h, ← hr, unesc]
            | cons x xs =>
                rw [show unesc (c :: x :: xs) = c :: unesc (x :: xs) by
                  simp [unesc, hc, he]]
                rw [← h]
                simp [ih]
  enc_ct_noColon := by
    intro iv p
    show ':' ∉ esc p
    induction p with
    | nil => simp [esc]
    | cons c rest ih =>
        have hre : esc (c :: rest) = escChar c ++ esc rest := by
          simp [esc, List.flatMap]
        rw [hre]
        intro hmem
        rcases List.mem_append.mp hmem with h | h
        · unfold escChar at h
          split at h
          · simp at h
          · split at h
            · simp at h
            · simp only [List.mem_singleton] at h
              subst h
              rename_i hcontra _
              exact hcontra rfl
        · exact ih h
  enc_tag_noColon := by intro iv p; simp

/-! ## OAuth callback (server/controllers/userController.js:
handleOuraOAuthCallback)

The oauthStates Firestore collection is an association list keyed by
the opaque state value; the code exchange and the user-document
transaction are external effects, passed in as outcomes (`none` = the
call threw).  The embedding follows the handler's control flow: error
param, missing state, unknown state, expired state (deleted), short
userId, code exchange, transaction, and only then deletion of the
state record. -/

/-- Ephemeral CSRF state, as stored in the oauthStates collection. -/
structure OAuthStateRecord where
  userId : String
  expiresMs : Int
deriving DecidableEq, Repr

/-- The oauthStates collection, keyed by the opaque state value. -/
abbrev StateStore := List (String × OAuthStateRecord)

/-- Firestore `doc(state).get()` on the oauthStates collection. -/
def lookupState (store : StateStore) (state : String) : Option OAuthStateRecord :=
  store.lookup state

/-- Firestore `doc(state).delete()` on the oauthStates collection. -/
def deleteState (store : StateStore) (state : String) : StateStore :=
  store.filter (fun p => p.1 != state)

/-- Token endpoint response for the authorization-code exchange. -/
structure TokenResponse where
  access_token : String
  refresh_token : String
  expires_in : Int
  user_id : Option String
deriving DecidableEq, Repr

/-- Redirect issued to the frontend at the end of the callback. -/
inductive CallbackResult
  | errorRedirect (message : String)
  | successRedirect
deriving DecidableEq, Repr

/-- The ouraIntegration object written into the user document by the
callback's transaction (spread fields elided; the fields below are the
ones the handler sets). -/
structure OuraIntegrationUpdate where
  connected : Bool
  accessToken : String
  refreshToken : String
  expiresAtMs : Int
  tokenInvalid : Bool
deriving DecidableEq, Repr

/-- Full observable outcome of one callback invocation. -/
structure CallbackOutcome where
  result : CallbackResult
  store : StateStore
  persisted : Option (String × OuraIntegrationUpdate)
deriving DecidableEq, Repr

/-- Embedding of `handleOuraOAuthCallback`.  `exchangeOutcome = none`
models `exchangeCodeForToken` throwing (caught by the outer catch);
`txOk = false` models the user-lookup/transaction path failing.
`encryptTok` is the Secret Box encryption applied to the fresh token
pair.  The returned store is the oauthStates collection after the
invocation; `persisted` is the integration update committed by the
transaction, if any. -/
def handleOuraOAuthCallback (nowMs : Int) (encryptTok : String → String)
    (errorParam : Option String) (stateParam : Option String)
    (store : StateStore) (exchangeOutcome : Option TokenResponse)
    (txOk : Bool) : CallbackOutcome :=
  match errorParam with
  | some e => ⟨.errorRedirect e, store, none⟩
  | none =>
    match stateParam with
    | none => ⟨.errorRedirect "Invalid OAuth callback", store, none⟩
    | some state =>
      match lookupState store state with
      | none => ⟨.errorRedirect "Invalid or expired authorization session", store, none⟩
      | some sr =>
        if sr.expiresMs < nowMs then
          ⟨.errorRedirect "Authorization session expired", deleteState store state, none⟩
        else if sr.userId.length < 20 then
          ⟨.errorRedirect "Invalid user identification", store, none⟩
        else
          match exchangeOutcome with
          | none => ⟨.errorRedirect "Failed to complete Oura authorization", store, none⟩
          | some tok =>
            if !txOk then
              ⟨.errorRedirect "User not found or could not be updated", store, none⟩
            else
              let integ : OuraIntegrationUpdate :=
                { connected := true
                  accessToken := encryptTok tok.access_token
                  refreshToken := encryptTok tok.refresh_token
                  expiresAtMs := nowMs + (tok.expires_in - 300) * 1000
                  tokenInvalid := false }
              ⟨.successRedirect, deleteState store state, some (sr.userId, integ)⟩

/-! ## Record mappers (server/controllers/sleepController.js:
mapOuraDataToSleepData V2, and the legacy duck-typed iteration)

Raw provider records are structures of optional fields: `none` models a
field that is absent or not a number/string (the code only ever probes
with `typeof x === 'number'` or truthiness).  Numeric fields are
rationals (JavaScript numbers on the values these records carry).
JavaScript truthiness (`x || y`, `x && y`) is modelled explicitly:
`none`, the empty string and 0 are falsy.  `Math.round(x)` is
`⌊x + 1/2⌋`, which is its JavaScript semantics on finite numbers. -/

/-- JavaScript `Math.round`: floor of x + 1/2 (also for negatives). -/
def jsRound (x : ℚ) : Int := ⌊x + 1 / 2⌋

/-- JavaScript `a || b` on optional strings: first truthy operand
(absent and "" are falsy). -/
def jsOrStr (a b : Option String) : Option String :=
  match a with
  | some s => if s = "" then b else some s
  | none => b

/-- JavaScript truthiness of an optional number (absent and 0 falsy). -/
def truthyNum (a : Option ℚ) : Bool :=
  match a with
  | some q => q != 0
  | none => false

/-- JavaScript `a || d` on an optional number with a numeric default. -/
def jsNumOr (a : Option ℚ) (d : ℚ) : ℚ :=
  match a with
  | some q => if q = 0 then d else q
  | none => d

/-- JavaScript `a || b || 0` for two optional numbers. -/
def jsNumChain2 (a b : Option ℚ) : ℚ :=
  if truthyNum a then jsNumOr a 0 else if truthyNum b then jsNumOr b 0 else 0

/-- Parse a YYYY-MM-DD string shape (the V2 mapper's regex
`^\d4-\d2-\d2$`, with the digit counts spelled out). -/
def parseIsoDay (s : String) : Option (ℕ × ℕ × ℕ) :=
  match s.data with
  | [y1, y2, y3, y4, h1, m1, m2, h2, d1, d2] =>
      if y1.isDigit && y2.isDigit && y3.isDigit && y4.isDigit && (h1 == '-')
          && m1.isDigit && m2.isDigit && (h2 == '-') && d1.isDigit && d2.isDigit then
        some (((y1.toNat - 48) * 1000 + (y2.toNat - 48) * 100
                + (y3.toNat - 48) * 10 + (y4.toNat - 48)),
              ((m1.toNat - 48) * 10 + (m2.toNat - 48)),
              ((d1.toNat - 48) * 10 + (d2.toNat - 48)))
      else none
  | _ => none

/-- The V2 mapper's regex test on the `day` field. -/
def matchesDayRegex (s : String) : Bool := (parseIsoDay s).isSome

/-- Gregorian leap-year rule. -/
def isLeapYear (y : ℕ) : Bool := (y % 4 == 0 && y % 100 != 0) || y % 400 == 0

/-- Days in a Gregorian month. -/
def daysInMonth (y m : ℕ) : ℕ :=
  if m = 2 then (if isLeapYear y then 29 else 28)
  else if m = 4 ∨ m = 6 ∨ m = 9 ∨ m = 11 then 30
  else 31

/-- Modelled collaborator: `moment.utc(day)` / `new Date(day)` yielding
a valid date (the `isNaN(date.getTime())` guard), for an ISO
YYYY-MM-DD shape: the month and day must exist on the Gregorian
calendar. -/
def dayFieldParses (s : String) : Bool :=
  match parseIsoDay s with
  | some (y, m, d) => 1 ≤ m && m ≤ 12 && 1 ≤ d && d ≤ daysInMonth y m
  | none => false

/-- The contributors sub-object of a raw Oura record. -/
structure OuraContributors where
  total_sleep : Option ℚ := none
  deep_sleep : Option ℚ := none
  rem_sleep : Option ℚ := none
  efficiency : Option ℚ := none
  latency : Option ℚ := none
deriving DecidableEq, Repr

/-- Empty contributors object (`record.contributors || ` an empty
object in the legacy mapper). -/
def emptyContributors : OuraContributors := {}

/-- Raw provider record, with every field the two mappers probe.
Nested objects that are only read at one path (record.duration.x,
record.heart_rate.x, record.hrv.rmssd, record.respiratory_rate.average,
record.score_nested.total) appear flattened under that path's name. -/
structure RawOuraRecord where
  id : Option String := none
  day : Option String := none
  summary_date : Option String := none
  timestamp_date : Option String := none
  score : Option ℚ := none
  sleep_score : Option ℚ := none
  score_nested_total : Option ℚ := none
  contributors : Option OuraContributors := none
  total_sleep_duration : Option ℚ := none
  deep_sleep_duration : Option ℚ := none
  rem_sleep_duration : Option ℚ := none
  light_sleep_duration : Option ℚ := none
  onset_latency : Option ℚ := none
  efficiency : Option ℚ := none
  duration_total_sleep : Option ℚ := none
  duration_deep_sleep : Option ℚ := none
  duration_rem_sleep : Option ℚ := none
  duration_light_sleep : Option ℚ := none
  latency : Option ℚ := none
  hr_average : Option ℚ := none
  hr_lowest : Option ℚ := none
  heart_rate_average : Option ℚ := none
  heart_rate_lowest : Option ℚ := none
  rmssd : Option ℚ := none
  hrv_rmssd : Option ℚ := none
  breath_average : Option ℚ := none
  respiratory_rate_average : Option ℚ := none
deriving DecidableEq, Repr

/-- Normalized metrics object of a mapped record. -/
structure SleepMetrics where
  totalSleepTime : ℚ
  efficiency : ℚ
  deepSleep : ℚ
  remSleep : ℚ
  lightSleep : ℚ
  latency : ℚ
  heartRateAverage : ℚ
  heartRateLowest : ℚ
  hrv : ℚ
  respiratoryRate : ℚ
deriving DecidableEq, Repr

/-- Normalized daily sleep record produced by a mapper.  `sourceId`
is `record.id`; `none` stands for the generated fallback id (which
embeds `Date.now()`, an effect). -/
structure MappedSleepRecord where
  userId : String
  dateId : String
  ouraScore : Int
  metrics : SleepMetrics
  sourceType : String
  sourceId : Option String
deriving DecidableEq, Repr

/-- Embedding of the strict V2 `mapOuraDataToSleepData` body for one
record (the map callback; `none` = the callback returned null).
A record is dropped when `day` is absent, fails the regex or does not
parse to a real date, or when `score` is not a number; otherwise every
metric defaults absent fields to 0 (`?? 0`). -/
def mapOuraV2Record (userId : String) (r : RawOuraRecord) : Option MappedSleepRecord :=
  match r.day with
  | none => none
  | some dayField =>
      if !matchesDayRegex dayField then none
      else if !dayFieldParses dayField then none
      else
        match r.score with
        | none => none
        | some sleepScore =>
            some
              { userId := userId
                dateId := dayField
                ouraScore := jsRound sleepScore
                metrics :=
                  { totalSleepTime := (jsRound (r.total_sleep_duration.getD 0) : ℚ)
                    efficiency := (jsRound (r.efficiency.getD 0) : ℚ)
                    deepSleep := (jsRound (r.deep_sleep_duration.getD 0) : ℚ)
                    remSleep := (jsRound (r.rem_sleep_duration.getD 0) : ℚ)
                    lightSleep := (jsRound (r.light_sleep_duration.getD 0) : ℚ)
                    latency := (jsRound (r.onset_latency.getD 0) : ℚ)
                    heartRateAverage := r.hr_average.getD 0
                    heartRateLowest := r.hr_lowest.getD 0
                    hrv := r.rmssd.getD 0
                    respiratoryRate := r.breath_average.getD 0 }
                sourceType := "oura_sleep_v2"
                sourceId := r.id }

/-- Embedding of the V2 `mapOuraDataToSleepData`: map then
`filter(Boolean)`. -/
def mapOuraDataToSleepDataV2 (records : List RawOuraRecord) (userId : String) :
    List MappedSleepRecord :=
  records.filterMap (mapOuraV2Record userId)

/-- Score selection of the legacy mapper: direct `score`, then
`sleep_score`, then `score_nested.total`, then a contributor-weighted
estimate when `total_sleep`, `deep_sleep` and `efficiency` are all
truthy, else the default 70. -/
def legacyScore (r : RawOuraRecord) : ℚ :=
  match r.score with
  | some q => q
  | none =>
      match r.sleep_score with
      | some q => q
      | none =>
          match r.score_nested_total with
          | some q => q
          | none =>
              let cs := r.contributors.getD emptyContributors
              if truthyNum cs.total_sleep && truthyNum cs.deep_sleep
                  && truthyNum cs.efficiency then
                (jsRound (cs.total_sleep.getD 0 * (4 / 10)
                    + cs.deep_sleep.getD 0 * (3 / 10)
                    + cs.efficiency.getD 0 * (3 / 10)) : ℚ)
              else 70

/-- Duration selection of the legacy mapper: direct fields, then nested
`duration` fields, then the percentage-contributor estimate against the
28800-second (8-hour) baseline. -/
def legacyDurations (r : RawOuraRecord) : ℚ × ℚ × ℚ × ℚ × ℚ :=
  match r.total_sleep_duration with
  | some total =>
      (total, r.deep_sleep_duration.getD 0, r.rem_sleep_duration.getD 0,
        r.light_sleep_duration.getD 0, r.onset_latency.getD 0)
  | none =>
      match r.duration_total_sleep with
      | some total =>
          (total, r.duration_deep_sleep.getD 0, r.duration_rem_sleep.getD 0,
            r.duration_light_sleep.getD 0, r.latency.getD 0)
      | none =>
          let cs := r.contributors.getD emptyContributors
          let total := 28800 * jsNumOr cs.total_sleep 90 / 100
          let deep := total * (20 / 100) * jsNumOr cs.deep_sleep 90 / 100
          let rem := total * (22 / 100) * jsNumOr cs.rem_sleep 90 / 100
          let light := total - deep - rem
          let lat := 1800 * (1 - jsNumOr cs.latency 80 / 100)
          (total, deep, rem, light, lat)

/-- Embedding of the legacy duck-typed mapper body for one record.
Only the day field (with its `new Date` validity check) is required;
the score falls back to estimates or the constant 70. -/
def mapOuraLegacyRecord (userId : String) (r : RawOuraRecord) : Option MappedSleepRecord :=
  match jsOrStr r.day (jsOrStr r.summary_date r.timestamp_date) with
  | none => none
  | some dayField =>
      if !dayFieldParses dayField then none
      else
        let ds := legacyDurations r
        let csEff : Option ℚ :=
          match r.contributors with
          | some c => c.efficiency
          | none => none
        some
          { userId := userId
            dateId := dayField
            ouraScore := jsRound (legacyScore r)
            metrics :=
              { totalSleepTime := (jsRound ds.1 : ℚ)
                efficiency := jsNumChain2 r.efficiency csEff * 100
                deepSleep := (jsRound ds.2.1 : ℚ)
                remSleep := (jsRound ds.2.2.1 : ℚ)
                lightSleep := (jsRound ds.2.2.2.1 : ℚ)
                latency := (jsRound ds.2.2.2.2 : ℚ)
                heartRateAverage := jsNumChain2 r.hr_average r.heart_rate_average
                heartRateLowest := jsNumChain2 r.hr_lowest r.heart_rate_lowest
                hrv := jsNumChain2 r.rmssd r.hrv_rmssd
                respiratoryRate := jsNumChain2 r.breath_average r.respiratory_rate_average }
            sourceType := "oura_sleep"
            sourceId := r.id }

/-- Embedding of the legacy `mapOuraDataToSleepData`: map then
`filter(Boolean)`. -/
def mapOuraDataToSleepDataLegacy (records : List RawOuraRecord) (userId : String) :
    List MappedSleepRecord :=
  records.filterMap (mapOuraLegacyRecord userId)

/-! ## Streak computation (server/controllers/sleepController.js:
calculateStreak, lines 674-723)

The docs are (date, score) pairs; `calculateStreak` first sorts by date
ascending (the `[...docs].sort((a, b) => a.date - b.date)` copy,
modelled by an insertion sort) and then folds, tracking the current and
longest streak with their start/end dates.  On a missed threshold the
current streak resets to 0 but `currentStart` is left as-is, exactly as
in the source. -/

/-- One document fed to the streak computation. -/
structure StreakDoc where
  date : Int
  score : ℚ
deriving DecidableEq, Repr

/-- Result shape of `calculateStreak`. -/
structure StreakResult where
  current : ℕ
  longest : ℕ
  longestStart : Option Int
  longestEnd : Option Int
deriving DecidableEq, Repr

/-- Insert into a date-sorted list (model of the comparator sort). -/
def insertByDate (d : StreakDoc) : List StreakDoc → List StreakDoc
  | [] => [d]
  | e :: rest => if d.date ≤ e.date then d :: e :: rest else e :: insertByDate d rest

/-- Sort documents by date ascending. -/
def sortByDate (docs : List StreakDoc) : List StreakDoc :=
  docs.foldr insertByDate []

/-- The forEach fold of `calculateStreak` plus the post-loop check.
Arguments mirror the mutable locals: currentStreak, longestStreak,
currentStart, longestStart, longestEnd; `prev` is the date of the
previous document (`sortedDocs[index - 1]`). -/
def streakLoop (t : ℚ) : List StreakDoc → ℕ → ℕ → Option Int → Option Int →
    Option Int → Option Int → StreakResult
  | [], cur, longest, curStart, lStart, lEnd, prev =>
      if longest < cur then ⟨cur, cur, curStart, prev⟩
      else ⟨cur, longest, lStart, lEnd⟩
  | d :: rest, cur, longest, curStart, lStart, lEnd, prev =>
      if t ≤ d.score then
        streakLoop t rest (cur + 1) longest
          (if cur = 0 then some d.date else curStart) lStart lEnd (some d.date)
      else
        if longest < cur then
          streakLoop t rest 0 cur curStart curStart prev (some d.date)
        else
          streakLoop t rest 0 longest curStart lStart lEnd (some d.date)

/-- Embedding of `calculateStreak`. -/
def calculateStreak (docs : List StreakDoc) (t : ℚ) : StreakResult :=
  if docs.isEmpty then ⟨0, 0, none, none⟩
  else streakLoop t (sortByDate docs) 0 0 none none none none

/-- Predicate: a document meets the threshold (`doc.score >= threshold`). -/
def meetsT (t : ℚ) (d : StreakDoc) : Bool := decide (t ≤ d.score)

/-- Length of the maximal meeting suffix. -/
def trailLen (t : ℚ) (l : List StreakDoc) : ℕ :=
  (l.reverse.takeWhile (meetsT t)).length

/-- Length of the maximal meeting prefix. -/
def headRunLen (t : ℚ) (l : List StreakDoc) : ℕ :=
  (l.takeWhile (meetsT t)).length

/-- Length of the longest run of consecutive meeting documents. -/
def maxRunLen (t : ℚ) : List StreakDoc → ℕ
  | [] => 0
  | d :: rest =>
      if t ≤ d.score then max (1 + headRunLen t rest) (maxRunLen t rest)
      else maxRunLen t rest

/-! ## Summary Aggregator write (server/controllers/sleepController.js:
updateSleepSummaries, and the same write in the legacy iteration)

Both iterations persist the recomputed summary with
`.set(summary.toFirestore(), { merge: true })`.  Firestore documents are
association lists from field names to values; a set-with-merge keeps
every stored field whose name the payload does not mention.  The
payload is `SleepSummary.toFirestore()` (server/model/SleepSummary.js),
which always emits exactly the eight fields below. -/

/-- Firestore `doc.get()` field access. -/
def lookupField {α : Type} (d : List (String × α)) (k : String) : Option α :=
  d.lookup k

/-- Firestore `doc.set(payload, merge true)`: payload fields win,
stored fields not named in the payload survive. -/
def setMergeDoc {α : Type} (old new : List (String × α)) : List (String × α) :=
  new ++ old.filter (fun p => !(new.any (fun q => q.1 == p.1)))

/-- Field names emitted by `SleepSummary.toFirestore()`. -/
def summaryFieldKeys : List String :=
  ["userId", "dailyAverage", "weeklyTrend", "monthlyTrend",
   "bestScore", "worstScore", "improvement", "lastUpdated"]

/-- Embedding of `SleepSummary.toFirestore()`: the document payload. -/
def sleepSummaryToFirestore {α : Type} (userId dailyAverage weeklyTrend monthlyTrend
    bestScore worstScore improvement lastUpdated : α) : List (String × α) :=
  [("userId", userId), ("dailyAverage", dailyAverage), ("weeklyTrend", weeklyTrend),
   ("monthlyTrend", monthlyTrend), ("bestScore", bestScore), ("worstScore", worstScore),
   ("improvement", improvement), ("lastUpdated", lastUpdated)]

/-- Embedding of the summary write in `updateSleepSummaries`:
`.set(summary.toFirestore(), merge true)` against the stored document. -/
def writeSleepSummary {α : Type} (stored payload : List (String × α)) :
    List (String × α) :=
  setMergeDoc stored payload

/-! ## Sync Reconciler (server/controllers/sleepController.js:
syncOuraData, second iteration, lines 939-1381)

The model composes the controller's phases: the connection /
invalid-token check, the expiry check with refresh, window selection,
the provider fetch (an environment outcome), the V2 mapper, the
sorted batched merge-upsert with read-before-write preservation of
tags/notes, and the final bookkeeping (lastSyncDate, tokenInvalid).
Times are integer UTC milliseconds; moment's 6-month calendar
subtraction is the environment parameter `sixMonthsAgoStartMs`
(already at start-of-day, as the code calls `.startOf('day')`).
`refreshCalls` and `fetchCalls` count the outbound provider HTTP
calls. -/

/-- Per-user Oura Integration Record (the `ouraIntegration` object). -/
structure OuraIntegration where
  connected : Bool
  tokenInvalid : Bool
  accessToken : Option String
  refreshToken : Option String
  expiresAt : Option Int
  lastRefreshed : Option Int
  lastSyncDate : Option Int
deriving DecidableEq, Repr

/-- Milliseconds per UTC calendar day. -/
def msPerDay : Int := 86400000

/-- Calendar-day index of a millisecond timestamp (moment UTC day). -/
def dayIndex (t : Int) : Int := t.fdiv msPerDay

/-- moment `.startOf('day')` in milliseconds. -/
def dayStartMs (t : Int) : Int := dayIndex t * msPerDay

/-- moment `.endOf('day')` in milliseconds. -/
def dayEndMs (t : Int) : Int := dayStartMs t + (msPerDay - 1)

/-- Outcome of the window-selection step. -/
inductive SyncWindow
  | upToDate
  | window (startDay endDay : Int)
deriving DecidableEq, Repr

/-- Embedding of step 4 of `syncOuraData` (window selection):
`endDate = utc().endOf('day')`; start is `lastSync + 1 day` at start of
day when `lastSyncDate.isAfter(sixMonthsAgo)`, else the six-months-ago
day start; `startDate.isAfter(endDate)` short-circuits. -/
def computeSyncWindow (nowMs sixMonthsAgoStartMs : Int) (lastSync : Option Int) :
    SyncWindow :=
  let endMs := dayEndMs nowMs
  let startMs :=
    match lastSync with
    | some ls =>
        if sixMonthsAgoStartMs < ls then dayStartMs (ls + msPerDay)
        else sixMonthsAgoStartMs
    | none => sixMonthsAgoStartMs
  if endMs < startMs then .upToDate
  else .window (dayIndex startMs) (dayIndex endMs)

/-- Daily Sleep Record as stored (SleepData.toFirestore; the `date`
field duplicates `dateId` and the dropped `sourceData` is omitted). -/
structure SleepDoc where
  userId : String
  dateId : String
  ouraScore : Int
  metrics : SleepMetrics
  tags : List String
  notes : String
deriving DecidableEq, Repr

/-- The per-user `sleepData/{userId}/daily` collection, keyed by dateId. -/
abbrev SleepStore := List (String × SleepDoc)

/-- Firestore `dailyCollectionRef.doc(dateId).get()`. -/
def lookupDaily (store : SleepStore) (dateId : String) : Option SleepDoc :=
  store.lookup dateId

/-- Firestore `batch.set(docRef, data, merge true)` for a payload that
carries every modelled field: the document at the key is replaced. -/
def setDaily (store : SleepStore) (dateId : String) (doc : SleepDoc) : SleepStore :=
  (dateId, doc) :: store.filter (fun p => p.1 != dateId)

/-- Embedding of the per-record body of the merge-upsert loop: build
the SleepData with `tags := [], notes := ""`, then read the existing
document and carry its tags/notes forward (`existingData.tags || []`
and `existingData.notes || ''`, which for present fields are the
stored values themselves). -/
def buildSleepDoc (store : SleepStore) (m : MappedSleepRecord) : SleepDoc :=
  let base : SleepDoc :=
    { userId := m.userId, dateId := m.dateId, ouraScore := m.ouraScore,
      metrics := m.metrics, tags := [], notes := "" }
  match lookupDaily store m.dateId with
  | some existing => { base with tags := existing.tags, notes := existing.notes }
  | none => base

/-- One merge-upsert of one mapped record. -/
def upsertDaily (store : SleepStore) (m : MappedSleepRecord) : SleepStore :=
  setDaily store m.dateId (buildSleepDoc store m)

/-- Commit one write batch: each record was built against the
pre-batch store (reads happen before the commit), writes land
atomically. -/
def commitBatch (pre : SleepStore) (batch : List MappedSleepRecord) : SleepStore :=
  batch.foldl (fun s m => setDaily s m.dateId (buildSleepDoc pre m)) pre

/-- Chunk a list into slices of `BATCH_SIZE = 50` (the
`for (i = 0; i < n; i += BATCH_SIZE)` slicing); the first argument is
fuel bounding the number of loop iterations. -/
def chunkGo {α : Type} : ℕ → List α → List (List α)
  | 0, _ => []
  | _ + 1, [] => []
  | fuel + 1, l => l.take 50 :: chunkGo fuel (l.drop 50)

/-- The batches of the merge-upsert phase. -/
def chunk50 {α : Type} (l : List α) : List (List α) := chunkGo l.length l

/-- State threaded through the batch loop. -/
structure BatchState where
  store : SleepStore
  processed : ℕ
  failed : ℕ
deriving Repr

/-- Embedding of the batch loop: per record `processedCount++` while
staging; on a failed `batch.commit()`,
`errorCount += batch.length; processedCount -= batch.length` and the
loop continues with the next batch. -/
def runBatches (commitOk : ℕ → Bool) :
    List (List MappedSleepRecord) → ℕ → BatchState → BatchState
  | [], _, st => st
  | b :: rest, i, st =>
      let p1 := st.processed + b.length
      if commitOk i then
        runBatches commitOk rest (i + 1) ⟨commitBatch st.store b, p1, st.failed⟩
      else
        runBatches commitOk rest (i + 1) ⟨st.store, p1 - b.length, st.failed + b.length⟩

/-- Total record count of the batches that committed. -/
def committedCount (commitOk : ℕ → Bool) : List (List MappedSleepRecord) → ℕ → ℕ
  | [], _ => 0
  | b :: rest, i =>
      (if commitOk i then b.length else 0) + committedCount commitOk rest (i + 1)

/-- Total record count of the batches whose commit failed. -/
def failedCount (commitOk : ℕ → Bool) : List (List MappedSleepRecord) → ℕ → ℕ
  | [], _ => 0
  | b :: rest, i =>
      (if commitOk i then 0 else b.length) + failedCount commitOk rest (i + 1)

/-- Step 8 of `syncOuraData`: after the batch loop (even with failed
batches) `lastSyncDate` advances to now and `tokenInvalid` clears. -/
def finishSync (integ : OuraIntegration) (now : Int) : OuraIntegration :=
  { integ with lastSyncDate := some now, tokenInvalid := false }

/-- Insert into a dateId-sorted list (ISO date order = string order;
models `mappedSleepData.sort((a, b) => a.date - b.date)`). -/
def insertByDateId (m : MappedSleepRecord) :
    List MappedSleepRecord → List MappedSleepRecord
  | [] => [m]
  | e :: rest =>
      if m.dateId ≤ e.dateId then m :: e :: rest else e :: insertByDateId m rest

/-- Sort mapped records by day before batching. -/
def sortMappedByDate (l : List MappedSleepRecord) : List MappedSleepRecord :=
  l.foldr insertByDateId []

/-- Result of the provider fetch, as classified by the controller. -/
inductive FetchOutcome
  | ok (data : List RawOuraRecord)
  | httpError (status : ℕ)
  | networkError
  | badShape
deriving Repr

/-- Environment of one sync run: the clock, the calendar six-months-ago
day start, and the outcomes of the outbound effects. -/
structure SyncEnv where
  nowMs : Int
  sixMonthsAgoStartMs : Int
  refreshOutcome : Option TokenResponse
  fetchOutcome : FetchOutcome
  commitOk : ℕ → Bool
  encryptTok : String → String

/-- The JSON bodies `syncOuraData` can answer with. -/
inductive SyncResultModel
  | noConnection (needsReconnect : Bool)
  | refreshFailed
  | upToDate
  | fetchFailed (needsReconnect : Bool) (status : Option ℕ)
  | invalidFormat
  | noNewData (recordsTotal : ℕ)
  | completed (processed failed received : ℕ)
deriving DecidableEq, Repr

/-- Observable outcome of one sync run. -/
structure SyncOutcome where
  result : SyncResultModel
  integ : OuraIntegration
  store : SleepStore
  refreshCalls : ℕ
  fetchCalls : ℕ
deriving Repr

/-- Expiry check of step 3: `!expiryTime || now >= expiryTime`. -/
def tokenExpired (integ : OuraIntegration) (nowMs : Int) : Bool :=
  match integ.expiresAt with
  | none => true
  | some e => decide (e ≤ nowMs)

/-- Steps 4-10 of `syncOuraData`, entered with a usable token. -/
def syncAfterToken (env : SyncEnv) (userId : String) (integ1 : OuraIntegration)
    (store : SleepStore) (refreshCalls : ℕ) : SyncOutcome :=
  match computeSyncWindow env.nowMs env.sixMonthsAgoStartMs integ1.lastSyncDate with
  | .upToDate => ⟨.upToDate, integ1, store, refreshCalls, 0⟩
  | .window _ _ =>
      match env.fetchOutcome with
      | .httpError st =>
          if st = 401 ∨ st = 403 then
            ⟨.fetchFailed true (some st), { integ1 with tokenInvalid := true },
              store, refreshCalls, 1⟩
          else ⟨.fetchFailed false (some st), integ1, store, refreshCalls, 1⟩
      | .networkError => ⟨.fetchFailed false none, integ1, store, refreshCalls, 1⟩
      | .badShape => ⟨.invalidFormat, integ1, store, refreshCalls, 1⟩
      | .ok data =>
          let mapped := mapOuraDataToSleepDataV2 data userId
          if mapped.isEmpty then
            ⟨.noNewData data.length, { integ1 with lastSyncDate := some env.nowMs },
              store, refreshCalls, 1⟩
          else
            let final := runBatches env.commitOk (chunk50 (sortMappedByDate mapped))
                0 ⟨store, 0, 0⟩
            ⟨.completed final.processed final.failed data.length,
              finishSync integ1 env.nowMs, final.store, refreshCalls, 1⟩

/-- Embedding of `syncOuraData` (steps 2-10; step 1's user fetch and
the parent-document write are store plumbing). -/
def syncOuraDataModel (env : SyncEnv) (userId : String) (integ : OuraIntegration)
    (store : SleepStore) : SyncOutcome :=
  if !integ.connected || integ.tokenInvalid || integ.accessToken.isNone
      || integ.refreshToken.isNone then
    ⟨.noConnection (integ.tokenInvalid || !integ.connected), integ, store, 0, 0⟩
  else if tokenExpired integ env.nowMs then
    match env.refreshOutcome with
    | none => ⟨.refreshFailed, { integ with tokenInvalid := true }, store, 1, 0⟩
    | some tok =>
        let integ1 : OuraIntegration :=
          { integ with
            accessToken := some (env.encryptTok tok.access_token)
            refreshToken := some (env.encryptTok tok.refresh_token)
            expiresAt := some (env.nowMs + (tok.expires_in - 600) * 1000)
            lastRefreshed := some env.nowMs
            tokenInvalid := false }
        syncAfterToken env userId integ1 store 1
  else syncAfterToken env userId integ store 0

/-! ## Theorems -/

theorem splitOnChar_ne_nil (sep : Char) (s : Str) : splitOnChar sep s ≠ [] := by
  simp [splitOnChar]

theorem splitGo_fst (sep : Char) (s : Str) :
    (splitGo sep s).1 = s.takeWhile (fun c => c ≠ sep) := by
  induction s with
  | nil => simp [splitGo]
  | cons c rest ih =>
      by_cases hc : c = sep
      · simp [splitGo, hc, List.takeWhile]
      · simp only [splitGo, hc, if_false, List.takeWhile]
        simp [hc, ih]

theorem splitOnChar_of_no_sep (sep : Char) (s : Str) (h : sep ∉ s) :
    splitOnChar sep s = [s] := by
  induction s with
  | nil => simp [splitOnChar, splitGo]
  | cons c rest ih =>
      simp only [List.mem_cons, not_or] at h
      have hne : c ≠ sep := fun hc => h.1 hc.symm
      simp only [splitOnChar, splitGo, hne, if_false] at ih ⊢
      simp only [List.cons.injEq] at ih
      obtain ⟨h1, h2⟩ := ih h.2
      simp [h1, h2]

theorem splitOnChar_append_sep (sep : Char) (a b : Str) (ha : sep ∉ a) :
    splitOnChar sep (a ++ sep :: b) = a :: splitOnChar sep b := by
  induction a with
  | nil => simp [splitOnChar, splitGo]
  | cons c rest ih =>
      simp only [List.mem_cons, not_or] at ha
      have hne : c ≠ sep := fun hc => ha.1 hc.symm
      simp only [List.cons_append, splitOnChar, splitGo, hne, if_false] at ih ⊢
      simp only [List.cons.injEq] at ih
      obtain ⟨h1, h2⟩ := ih ha.2
      simp [h1, h2]

theorem isHexChar_ne_colon {c : Char} (h : isHexChar c = true) : c ≠ ':' := by
  intro hc; subst hc; simp [isHexChar] at h

theorem hex_not_mem_colon {l : Str} (h : ∀ c ∈ l, isHexChar c = true) : ':' ∉ l :=
  fun hmem => isHexChar_ne_colon (h ':' hmem) rfl

theorem insecureMark_isPrefixOf_false {ivHex rest : Str}
    (hiv : ∀ c ∈ ivHex, isHexChar c = true) :
    insecureMark.isPrefixOf (ivHex ++ ':' :: rest) = false := by
  cases ivHex with
  | nil => rfl
  | cons c cs =>
      have hc : isHexChar c = true := hiv c (List.mem_cons_self c cs)
      have : c ≠ 'i' := by
        intro h; subst h; simp [isHexChar] at hc
      simp only [insecureMark, List.cons_append]
      show (('i' == c) && _) = false
      simp [this.symm]

theorem takeWhile_ne_colon_of_not_mem {s : Str} (h : ':' ∉ s) :
    s.takeWhile (fun c => c ≠ ':') = s := by
  induction s with
  | nil => rfl
  | cons c rest ih =>
      simp only [List.mem_cons, not_or] at h
      have hc : c ≠ ':' := fun hcc => h.1 hcc.symm
      rw [List.takeWhile_cons, if_pos (by simp [hc]), ih h.2]

theorem isPrefixOf_append_self (a b : Str) : a.isPrefixOf (a ++ b) = true := by
  induction a with
  | nil => simp [List.isPrefixOf]
  | cons c rest ih => simp [List.isPrefixOf, ih]

theorem decrypt_passthrough (g : GcmCipher) (s : Str) :
    decryptData g false (insecureMark ++ s)
      = some (s.takeWhile (fun c => c ≠ ':')) := by
  have hnom : ':' ∉ "insecure".data := by decide
  show (splitOnChar ':' (insecureMark ++ s)).get? 1 = _
  rw [show insecureMark ++ s = "insecure".data ++ ':' :: s from rfl,
    splitOnChar_append_sep ':' _ s hnom]
  simp only [splitOnChar, List.get?]
  rw [splitGo_fst]

/-- C5 (amended).  With an operator key configured, the Secret Box
round-trips every plaintext: `decryptData` applied to `encryptData`
recovers `s` exactly, for any GCM cipher, any hex IV and any plaintext.
In insecure passthrough mode (no key configured) the round trip instead
returns only the prefix of `s` before its first colon — `split(':')[1]`
truncates there — so it equals `s` precisely when `s` contains no colon. -/
theorem secretbox_decrypt_encrypt (g : GcmCipher) (ivHex s : Str)
    (hiv : ∀ c ∈ ivHex, isHexChar c = true) :
    decryptData g true (encryptData g true ivHex s) = some s ∧
    decryptData g false (encryptData g false ivHex s)
      = some (s.takeWhile (fun c => c ≠ ':')) ∧
    (':' ∉ s → decryptData g false (encryptData g false ivHex s) = some s) := by
  refine ⟨?_, ?_, ?_⟩
  · have henc : encryptData g true ivHex s
        = ivHex ++ ':' :: ((g.enc ivHex s).2 ++ ':' :: (g.enc ivHex s).1) := by
      simp [encryptData]
    have hpre := @insecureMark_isPrefixOf_false ivHex
        ((g.enc ivHex s).2 ++ ':' :: (g.enc ivHex s).1) hiv
    have hsp : splitOnChar ':'
          (ivHex ++ ':' :: ((g.enc ivHex s).2 ++ ':' :: (g.enc ivHex s).1))
        = [ivHex, (g.enc ivHex s).2, (g.enc ivHex s).1] := by
      rw [splitOnChar_append_sep ':' _ _ (hex_not_mem_colon hiv),
        splitOnChar_append_sep ':' _ _ (g.enc_tag_noColon ivHex s),
        splitOnChar_of_no_sep ':' _ (g.enc_ct_noColon ivHex s)]
    rw [henc]
    show (if insecureMark.isPrefixOf
          (ivHex ++ ':' :: ((g.enc ivHex s).2 ++ ':' :: (g.enc ivHex s).1)) = true
        then some ((ivHex ++ ':' :: ((g.enc ivHex s).2 ++ ':' :: (g.enc ivHex s).1)).drop 9)
        else
          match splitOnChar ':'
              (ivHex ++ ':' :: ((g.enc ivHex s).2 ++ ':' :: (g.enc ivHex s).1)) with
          | iv2 :: tag2 :: ct2 :: _ => g.dec iv2 tag2 ct2
          | _ => none) = some s
    rw [hpre]
    simp only [Bool.false_eq_true, if_false, hsp]
    exact g.dec_enc ivHex s
  · have henc : encryptData g false ivHex s = insecureMark ++ s := by rfl
    rw [henc, decrypt_passthrough]
  · intro hns
    have henc : encryptData g false ivHex s = insecureMark ++ s := by rfl
    rw [henc, decrypt_passthrough, takeWhile_ne_colon_of_not_mem hns]

/-- C5 counterexample.  In passthrough mode (no operator key) the
round trip loses everything from the first colon on: for the plaintext
"ab:cd", decrypt of encrypt returns "ab", not the original string.  So
`decrypt(encrypt(s)) == s` does not hold for all strings `s`. -/
theorem secretbox_roundtrip_cex :
    decryptData escCipher false (encryptData escCipher false [] "ab:cd".data)
        = some "ab".data ∧
    decryptData escCipher false (encryptData escCipher false [] "ab:cd".data)
        ≠ some "ab:cd".data := by
  constructor
  · decide
  · decide

/-- C5 witness: the amended round-trip theorem applied at the concrete
cipher `escCipher`, IV "0a" and plaintext "tok". -/
theorem secretbox_decrypt_encrypt_witness :
    decryptData escCipher true
        (encryptData escCipher true "0a".data "tok".data) = some "tok".data ∧
    decryptData escCipher false
        (encryptData escCipher false "0a".data "tok".data) = some "tok".data := by
  have h := secretbox_decrypt_encrypt escCipher "0a".data "tok".data (by decide)
  exact ⟨h.1, h.2.2 (by decide)⟩

/-- C10 (amended).  With an operator key configured, `decryptData`
returns the raw suffix of any `insecure:`-prefixed string without ever
consulting the cipher (the statement holds for every `GcmCipher`), so
the authenticated-encryption check is bypassed for such tokens even in
a fully configured deployment.  Without a key configured, however, the
result is `split(':')[1]`, which equals the suffix only when it
contains no colon. -/
theorem insecure_mark_bypass (g : GcmCipher) (s : Str) :
    decryptData g true (insecureMark ++ s) = some s ∧
    (':' ∉ s → decryptData g false (insecureMark ++ s) = some s) := by
  constructor
  · have hpre : insecureMark.isPrefixOf (insecureMark ++ s) = true :=
      isPrefixOf_append_self insecureMark s
    have hdrop : (insecureMark ++ s).drop 9 = s := by
      have : (9 : ℕ) = insecureMark.length := rfl
      rw [this, List.drop_left]
    simp [decryptData, hpre, hdrop]
  · intro hns
    rw [decrypt_passthrough, takeWhile_ne_colon_of_not_mem hns]

/-- C10 counterexample.  With no operator key configured, decrypt of
"insecure:" ++ "x:y" returns "x", not "x:y": the claim's
"regardless of whether an operator encryption key is configured,
decrypt(insecure: + s) returns s" fails for suffixes containing a
colon in the unconfigured mode. -/
theorem insecure_mark_cex :
    decryptData escCipher false (insecureMark ++ "x:y".data) = some "x".data ∧
    decryptData escCipher false (insecureMark ++ "x:y".data) ≠ some "x:y".data := by
  constructor
  · decide
  · decide

/-- C10 witness: the amended theorem applied at `escCipher` and the
suffix "mytoken". -/
theorem insecure_mark_bypass_witness :
    decryptData escCipher true (insecureMark ++ "mytoken".data)
        = some "mytoken".data ∧
    decryptData escCipher false (insecureMark ++ "mytoken".data)
        = some "mytoken".data := by
  have h := insecure_mark_bypass escCipher "mytoken".data
  exact ⟨h.1, h.2 (by decide)⟩

theorem lookup_deleteState (store : StateStore) (state : String) :
    lookupState (deleteState store state) state = none := by
  induction store with
  | nil => rfl
  | cons p rest ih =>
      by_cases h : p.1 = state
      · simp only [deleteState, List.filter]
        have : (p.1 != state) = false := by simp [h]
        rw [this]
        exact ih
      · simp only [deleteState, List.filter]
        have hne : (p.1 != state) = true := by simp [h]
        rw [hne]
        simp only [lookupState, List.lookup]
        have : (state == p.1) = false := by
          simp [BEq.comm]
          exact fun hc => h hc.symm
        rw [this]
        exact ih

/-- C2 counterexample.  The state record is not deleted before the code
exchange: a callback whose exchange throws leaves the record in place,
and replaying the very same state value then succeeds instead of being
rejected.  Concretely, with one unexpired state record and a failing
exchange, the handler errors while keeping the record; a second
invocation with the same state and a working exchange completes
successfully and persists the integration. -/
theorem oauth_state_consumed_once_cex :
    (handleOuraOAuthCallback 500 id none (some "st1")
        [("st1", ⟨"user0123456789abcdefgh", 1000⟩)] none true).store
      = [("st1", ⟨"user0123456789abcdefgh", 1000⟩)] ∧
    (handleOuraOAuthCallback 500 id none (some "st1")
        [("st1", ⟨"user0123456789abcdefgh", 1000⟩)] none true).result
      = .errorRedirect "Failed to complete Oura authorization" ∧
    (handleOuraOAuthCallback 600 id none (some "st1")
        (handleOuraOAuthCallback 500 id none (some "st1")
          [("st1", ⟨"user0123456789abcdefgh", 1000⟩)] none true).store
        (some ⟨"at", "rt", 3600, none⟩) true).result
      = .successRedirect := by
  refine ⟨?_, ?_, ?_⟩ <;> decide

/-- C2 (amended).  For a valid, unexpired state with a plausible
userId: a callback whose code exchange or transaction fails leaves the
state record untouched (deletion is conditional on success, and happens
after the exchange and the integration write, not before); a fully
successful callback persists the integration and deletes the state
record, so a second callback presenting the same state value is then
rejected with the invalid/expired-state error. -/
theorem oauth_state_lifecycle (nowMs now2 : Int) (encryptTok : String → String)
    (store : StateStore) (state : String) (sr : OAuthStateRecord)
    (tok : TokenResponse) (tx2 : Bool) (ex2 : Option TokenResponse)
    (hfound : lookupState store state = some sr)
    (hfresh : ¬ sr.expiresMs < nowMs)
    (huid : ¬ sr.userId.length < 20) :
    (handleOuraOAuthCallback nowMs encryptTok none (some state) store none true).store
        = store ∧
    (handleOuraOAuthCallback nowMs encryptTok none (some state) store (some tok) false).store
        = store ∧
    ((handleOuraOAuthCallback nowMs encryptTok none (some state) store (some tok) true).result
        = .successRedirect ∧
      (handleOuraOAuthCallback nowMs encryptTok none (some state) store (some tok) true).persisted
        = some (sr.userId,
            { connected := true
              accessToken := encryptTok tok.access_token
              refreshToken := encryptTok tok.refresh_token
              expiresAtMs := nowMs + (tok.expires_in - 300) * 1000
              tokenInvalid := false }) ∧
      (handleOuraOAuthCallback now2 encryptTok none (some state)
          (handleOuraOAuthCallback nowMs encryptTok none (some state) store (some tok) true).store
          ex2 tx2).result
        = .errorRedirect "Invalid or expired authorization session") := by
  refine ⟨?_, ?_, ?_, ?_, ?_⟩
  · simp [handleOuraOAuthCallback, hfound, hfresh, huid]
  · simp [handleOuraOAuthCallback, hfound, hfresh, huid]
  · simp [handleOuraOAuthCallback, hfound, hfresh, huid]
  · simp [handleOuraOAuthCallback, hfound, hfresh, huid]
  · have hstore : (handleOuraOAuthCallback nowMs encryptTok none (some state) store
        (some tok) true).store = deleteState store state := by
      simp [handleOuraOAuthCallback, hfound, hfresh, huid]
    rw [hstore]
    simp [handleOuraOAuthCallback, lookup_deleteState]

/-- C2 witness: the amended lifecycle theorem at a concrete store,
state, token response and clock. -/
theorem oauth_state_lifecycle_witness :
    (handleOuraOAuthCallback 500 id none (some "stw")
        [("stw", ⟨"user0123456789abcdefgh", 1000⟩)] (some ⟨"a", "r", 3600, none⟩) true).result
      = .successRedirect ∧
    (handleOuraOAuthCallback 700 id none (some "stw")
        (handleOuraOAuthCallback 500 id none (some "stw")
          [("stw", ⟨"user0123456789abcdefgh", 1000⟩)] (some ⟨"a", "r", 3600, none⟩) true).store
        (some ⟨"a", "r", 3600, none⟩) true).result
      = .errorRedirect "Invalid or expired authorization session" := by
  have h := oauth_state_lifecycle 500 700 id
      [("stw", ⟨"user0123456789abcdefgh", 1000⟩)] "stw" ⟨"user0123456789abcdefgh", 1000⟩
      ⟨"a", "r", 3600, none⟩ true (some ⟨"a", "r", 3600, none⟩)
      (by decide) (by decide) (by decide)
  exact ⟨h.2.2.1, h.2.2.2.2⟩

theorem jsRound_intCast (n : Int) : jsRound (n : ℚ) = n := by
  unfold jsRound
  rw [Int.floor_eq_iff]
  constructor
  · linarith
  · linarith

theorem length_filterMap_count {α β : Type} (f : α → Option β) (l : List α) :
    (l.filterMap f).length = (l.filter (fun x => (f x).isSome)).length := by
  induction l with
  | nil => rfl
  | cons x xs ih =>
      cases h : f x <;> simp [List.filterMap_cons, List.filter_cons, h, ih]

/-- C3 counterexample.  The legacy mapper does not exclude a record
that lacks a numeric score: a raw record with a valid day and no score
field at all is mapped with the hard-coded default score 70 and kept in
the normalized output, so "a record lacking a numeric score is excluded
and never given a default/estimated score" fails on the code. -/
theorem mapper_default_score_cex :
    ∃ m, mapOuraDataToSleepDataLegacy [{ day := some "2024-01-01" }] "u1" = [m] ∧
      m.ouraScore = 70 := by
  refine ⟨_, rfl, ?_⟩
  show jsRound (legacyScore { day := some "2024-01-01" }) = 70
  have h1 : legacyScore { day := some "2024-01-01" } = (70 : ℚ) := rfl
  rw [h1, show (70 : ℚ) = ((70 : Int) : ℚ) by norm_num, jsRound_intCast]

/-- C3 (amended).  Only the strict V2 mapper enforces both required
fields: a record whose day is absent or unparseable, or whose score is
not a number, is dropped (and any record it keeps carries the score
rounded from the raw record, never a default).  The legacy mapper
requires only the day: with no score field anywhere and no truthy
contributor triple it still emits the record with score 70.  Neither
mapper maintains a numeric mapping-error count: dropped records are
observable only as the difference between input and output lengths
(they are logged per record). -/
theorem mapper_required_fields (u : String) (r : RawOuraRecord)
    (records : List RawOuraRecord) :
    (r.day = none → mapOuraV2Record u r = none) ∧
    (∀ d, r.day = some d → dayFieldParses d = false → mapOuraV2Record u r = none) ∧
    (r.score = none → mapOuraV2Record u r = none) ∧
    (∀ m, mapOuraV2Record u r = some m →
      ∃ q, r.score = some q ∧ m.ouraScore = jsRound q) ∧
    (jsOrStr r.day (jsOrStr r.summary_date r.timestamp_date) = none →
      mapOuraLegacyRecord u r = none) ∧
    (∀ d, jsOrStr r.day (jsOrStr r.summary_date r.timestamp_date) = some d →
      dayFieldParses d = true →
      r.score = none → r.sleep_score = none → r.score_nested_total = none →
      (truthyNum (r.contributors.getD emptyContributors).total_sleep
        && truthyNum (r.contributors.getD emptyContributors).deep_sleep
        && truthyNum (r.contributors.getD emptyContributors).efficiency) = false →
      ∃ m, mapOuraLegacyRecord u r = some m ∧ m.ouraScore = 70) ∧
    (mapOuraDataToSleepDataV2 records u).length
      = (records.filter (fun rr => (mapOuraV2Record u rr).isSome)).length := by
  refine ⟨?_, ?_, ?_, ?_, ?_, ?_, ?_⟩
  · intro h; simp [mapOuraV2Record, h]
  · intro d hd hparse
    have hregex : matchesDayRegex d = false ∨ matchesDayRegex d = true :=
      Bool.eq_false_or_eq_true _ |>.symm.imp id id
    simp only [mapOuraV2Record, hd]
    rcases hregex with h | h
    · simp [h]
    · simp [h, hparse]
  · intro h
    simp only [mapOuraV2Record]
    cases hd : r.day with
    | none => rfl
    | some d =>
        by_cases hr : matchesDayRegex d
        · by_cases hp : dayFieldParses d
          · simp [hr, hp, h]
          · simp [hr, hp]
        · simp [hr]
  · intro m h
    cases hd : r.day with
    | none => simp [mapOuraV2Record, hd] at h
    | some d =>
        cases hr : matchesDayRegex d with
        | false => simp [mapOuraV2Record, hd, hr] at h
        | true =>
            cases hp : dayFieldParses d with
            | false => simp [mapOuraV2Record, hd, hr, hp] at h
            | true =>
                cases hs : r.score with
                | none => simp [mapOuraV2Record, hd, hr, hp, hs] at h
                | some q =>
                    simp only [mapOuraV2Record, hd, hr, hp, hs, Bool.not_true,
                      Bool.false_eq_true, if_false, Option.some.injEq] at h
                    subst h
                    exact ⟨q, rfl, rfl⟩
  · intro h; simp [mapOuraLegacyRecord, h]
  · intro d hd hparse hs1 hs2 hs3 hcontrib
    cases hm : mapOuraLegacyRecord u r with
    | none =>
        exfalso
        simp only [mapOuraLegacyRecord, hd, hparse, Bool.not_true, Bool.false_eq_true,
          if_false] at hm
        exact Option.noConfusion hm
    | some m =>
        refine ⟨m, rfl, ?_⟩
        have hsc : m.ouraScore = jsRound (legacyScore r) := by
          simp only [mapOuraLegacyRecord, hd, hparse, Bool.not_true, Bool.false_eq_true,
            if_false, Option.some.injEq] at hm
          rw [← hm]
        have h1 : legacyScore r = (70 : ℚ) := by
          simp only [legacyScore, hs1, hs2, hs3]
          simp only [hcontrib, Bool.false_eq_true, if_false]
        rw [hsc, h1, show (70 : ℚ) = ((70 : Int) : ℚ) by norm_num, jsRound_intCast]
  · exact length_filterMap_count _ _

/-- C3 witness: the amended mapper theorem applied at concrete records
(a record with no day, a record with a day but no score, and the same
record through the legacy mapper). -/
theorem mapper_required_fields_witness :
    mapOuraV2Record "u" {} = none ∧
    mapOuraV2Record "u" { day := some "2024-01-01" } = none ∧
    (∃ m, mapOuraLegacyRecord "u" { day := some "2024-01-01" } = some m ∧
      m.ouraScore = 70) := by
  refine ⟨(mapper_required_fields "u" {} []).1 rfl,
    (mapper_required_fields "u" { day := some "2024-01-01" } []).2.2.1 rfl,
    (mapper_required_fields "u" { day := some "2024-01-01" } []).2.2.2.2.2.1
      "2024-01-01" (by decide) (by decide) rfl rfl rfl (by decide)⟩

theorem takeWhile_append_of_all {α : Type} (p : α → Bool) (a b : List α)
    (h : ∀ x ∈ a, p x = true) :
    (a ++ b).takeWhile p = a ++ b.takeWhile p := by
  induction a with
  | nil => simp
  | cons x xs ih =>
      have hx := h x (List.mem_cons_self x xs)
      simp only [List.cons_append, List.takeWhile_cons, hx, if_true]
      rw [ih (fun y hy => h y (List.mem_cons_of_mem x hy))]

theorem takeWhile_append_of_exists {α : Type} (p : α → Bool) (a b : List α)
    (h : ∃ x ∈ a, p x = false) :
    (a ++ b).takeWhile p = a.takeWhile p := by
  induction a with
  | nil => obtain ⟨x, hx, _⟩ := h; exact absurd hx (List.not_mem_nil x)
  | cons x xs ih =>
      cases hx : p x with
      | false => simp [List.takeWhile_cons, hx]
      | true =>
          simp only [List.cons_append, List.takeWhile_cons, hx, if_true]
          obtain ⟨y, hy, hpy⟩ := h
          rcases List.mem_cons.mp hy with rfl | hy2
          · rw [hx] at hpy; cases hpy
          · rw [ih ⟨y, hy2, hpy⟩]

theorem trailLen_cons_all (t : ℚ) (d : StreakDoc) (rest : List StreakDoc)
    (hall : rest.all (meetsT t) = true) :
    trailLen t (d :: rest)
      = if t ≤ d.score then rest.length + 1 else rest.length := by
  have hrev : ∀ x ∈ rest.reverse, meetsT t x = true := by
    intro x hx
    exact List.all_eq_true.mp hall x (List.mem_reverse.mp hx)
  simp only [trailLen, List.reverse_cons]
  rw [takeWhile_append_of_all _ _ _ hrev]
  by_cases hd : t ≤ d.score
  · have hdm : meetsT t d = true := by simp [meetsT, hd]
    rw [if_pos hd]
    simp [List.takeWhile_cons, hdm]
  · have hdm : meetsT t d = false := by simp [meetsT, hd]
    rw [if_neg hd]
    simp [List.takeWhile_cons, hdm]

theorem trailLen_cons_not_all (t : ℚ) (d : StreakDoc) (rest : List StreakDoc)
    (hall : rest.all (meetsT t) = false) :
    trailLen t (d :: rest) = trailLen t rest := by
  have hex : ∃ x ∈ rest.reverse, meetsT t x = false := by
    rcases List.all_eq_false.mp hall with ⟨x, hx, hpx⟩
    exact ⟨x, List.mem_reverse.mpr hx, by simpa using hpx⟩
  simp only [trailLen, List.reverse_cons]
  rw [takeWhile_append_of_exists _ _ _ hex]

theorem headRunLen_le_maxRunLen (t : ℚ) (l : List StreakDoc) :
    headRunLen t l ≤ maxRunLen t l := by
  induction l with
  | nil => simp [headRunLen, maxRunLen]
  | cons d rest ih =>
      by_cases hd : t ≤ d.score
      · have hdm : meetsT t d = true := by simp [meetsT, hd]
        have h1 : headRunLen t (d :: rest) = 1 + headRunLen t rest := by
          simp only [headRunLen, List.takeWhile_cons, hdm, if_true, List.length_cons]
          omega
        have h2 : maxRunLen t (d :: rest)
            = max (1 + headRunLen t rest) (maxRunLen t rest) := by
          simp [maxRunLen, hd]
        rw [h1, h2]
        exact le_max_left _ _
      · have hdm : meetsT t d = false := by simp [meetsT, hd]
        have h1 : headRunLen t (d :: rest) = 0 := by
          simp [headRunLen, List.takeWhile_cons, hdm]
        have h2 : maxRunLen t (d :: rest) = maxRunLen t rest := by
          simp [maxRunLen, hd]
        rw [h1, h2]
        omega

theorem streakLoop_current (t : ℚ) (l : List StreakDoc) :
    ∀ cur longest curStart lStart lEnd prev,
      (streakLoop t l cur longest curStart lStart lEnd prev).current
        = if l.all (meetsT t) then cur + l.length else trailLen t l := by
  induction l with
  | nil =>
      intro cur longest curStart lStart lEnd prev
      by_cases h : longest < cur <;> simp [streakLoop, h, trailLen]
  | cons d rest ih =>
      intro cur longest curStart lStart lEnd prev
      by_cases hd : t ≤ d.score
      · have hdm : meetsT t d = true := by simp [meetsT, hd]
        have hallc : (d :: rest).all (meetsT t) = rest.all (meetsT t) := by
          simp [List.all_cons, hdm]
        rw [show streakLoop t (d :: rest) cur longest curStart lStart lEnd prev
            = streakLoop t rest (cur + 1) longest
                (if cur = 0 then some d.date else curStart) lStart lEnd (some d.date) by
          simp [streakLoop, hd]]
        rw [ih, hallc]
        by_cases hall : rest.all (meetsT t) = true
        · rw [if_pos hall, if_pos hall]
          simp only [List.length_cons]
          omega
        · have hall2 : rest.all (meetsT t) = false := by simpa using hall
          rw [if_neg (by simp [hall2]), if_neg (by simp [hall2]),
            trailLen_cons_not_all t d rest hall2]
      · have hdm : meetsT t d = false := by simp [meetsT, hd]
        have hcons : (d :: rest).all (meetsT t) = false := by
          simp [List.all_cons, hdm]
        rw [if_neg (by simp [hcons])]
        by_cases hlc : longest < cur
        · rw [show streakLoop t (d :: rest) cur longest curStart lStart lEnd prev
              = streakLoop t rest 0 cur curStart curStart prev (some d.date) by
            simp [streakLoop, hd, hlc]]
          rw [ih]
          by_cases hall : rest.all (meetsT t) = true
          · rw [if_pos hall, trailLen_cons_all t d rest hall, if_neg hd]
            omega
          · have hall2 : rest.all (meetsT t) = false := by simpa using hall
            rw [if_neg (by simp [hall2]), trailLen_cons_not_all t d rest hall2]
        · rw [show streakLoop t (d :: rest) cur longest curStart lStart lEnd prev
              = streakLoop t rest 0 longest curStart lStart lEnd (some d.date) by
            simp [streakLoop, hd, hlc]]
          rw [ih]
          by_cases hall : rest.all (meetsT t) = true
          · rw [if_pos hall, trailLen_cons_all t d rest hall, if_neg hd]
            omega
          · have hall2 : rest.all (meetsT t) = false := by simpa using hall
            rw [if_neg (by simp [hall2]), trailLen_cons_not_all t d rest hall2]

theorem streakLoop_longest (t : ℚ) (l : List StreakDoc) :
    ∀ cur longest curStart lStart lEnd prev,
      (streakLoop t l cur longest curStart lStart lEnd prev).longest
        = max (max longest (maxRunLen t l)) (cur + headRunLen t l) := by
  induction l with
  | nil =>
      intro cur longest curStart lStart lEnd prev
      have h0 : headRunLen t ([] : List StreakDoc) = 0 := rfl
      have h1 : maxRunLen t [] = 0 := rfl
      by_cases h : longest < cur
      · rw [show streakLoop t [] cur longest curStart lStart lEnd prev
            = ⟨cur, cur, curStart, prev⟩ by simp [streakLoop, h]]
        rw [h0, h1]
        simp only [Nat.max_def]
        split_ifs <;> omega
      · rw [show streakLoop t [] cur longest curStart lStart lEnd prev
            = ⟨cur, longest, lStart, lEnd⟩ by simp [streakLoop, h]]
        rw [h0, h1]
        simp only [Nat.max_def]
        split_ifs <;> omega
  | cons d rest ih =>
      intro cur longest curStart lStart lEnd prev
      by_cases hd : t ≤ d.score
      · have hdm : meetsT t d = true := by simp [meetsT, hd]
        have hh : headRunLen t (d :: rest) = 1 + headRunLen t rest := by
          simp only [headRunLen, List.takeWhile_cons, hdm, if_true, List.length_cons]
          omega
        have hm : maxRunLen t (d :: rest)
            = max (1 + headRunLen t rest) (maxRunLen t rest) := by
          simp [maxRunLen, hd]
        rw [show streakLoop t (d :: rest) cur longest curStart lStart lEnd prev
            = streakLoop t rest (cur + 1) longest
                (if cur = 0 then some d.date else curStart) lStart lEnd (some d.date) by
          simp [streakLoop, hd]]
        rw [ih, hh, hm]
        simp only [Nat.max_def]
        split_ifs <;> omega
      · have hdm : meetsT t d = false := by simp [meetsT, hd]
        have hh : headRunLen t (d :: rest) = 0 := by
          simp [headRunLen, List.takeWhile_cons, hdm]
        have hm : maxRunLen t (d :: rest) = maxRunLen t rest := by
          simp [maxRunLen, hd]
        have hle := headRunLen_le_maxRunLen t rest
        by_cases hlc : longest < cur
        · rw [show streakLoop t (d :: rest) cur longest curStart lStart lEnd prev
              = streakLoop t rest 0 cur curStart curStart prev (some d.date) by
            simp [streakLoop, hd, hlc]]
          rw [ih, hh, hm]
          simp only [Nat.max_def]
          split_ifs <;> omega
        · rw [show streakLoop t (d :: rest) cur longest curStart lStart lEnd prev
              = streakLoop t rest 0 longest curStart lStart lEnd (some d.date) by
            simp [streakLoop, hd, hlc]]
          rw [ih, hh, hm]
          simp only [Nat.max_def]
          split_ifs <;> omega

theorem all_takeWhile_eq_self {α : Type} (p : α → Bool) (l : List α)
    (h : ∀ x ∈ l, p x = true) : l.takeWhile p = l := by
  induction l with
  | nil => rfl
  | cons x xs ih =>
      rw [List.takeWhile_cons, if_pos (h x (List.mem_cons_self x xs)),
        ih (fun y hy => h y (List.mem_cons_of_mem x hy))]

theorem isPrefix_all_length_le {α : Type} (p : α → Bool) (l1 l2 : List α)
    (hpre : l1 <+: l2) (h : ∀ x ∈ l1, p x = true) :
    l1.length ≤ (l2.takeWhile p).length := by
  obtain ⟨tl, rfl⟩ := hpre
  rw [takeWhile_append_of_all p l1 tl h]
  simp

theorem isInfix_cons_elim {α : Type} {v : List α} {d : α} {rest : List α}
    (h : v <:+: d :: rest) : v <+: d :: rest ∨ v <:+: rest := by
  obtain ⟨s, t2, hst⟩ := h
  cases s with
  | nil =>
      left
      exact ⟨t2, by simpa using hst⟩
  | cons a s2 =>
      right
      simp only [List.cons_append] at hst
      injection hst with h1 h2
      exact ⟨s2, t2, h2⟩

theorem trailLen_max_suffix (t : ℚ) (docs : List StreakDoc) :
    (∃ u, u <:+ docs ∧ (∀ d ∈ u, t ≤ d.score) ∧ u.length = trailLen t docs) ∧
    (∀ v, v <:+ docs → (∀ d ∈ v, t ≤ d.score) → v.length ≤ trailLen t docs) := by
  constructor
  · refine ⟨(docs.reverse.takeWhile (meetsT t)).reverse, ?_, ?_, ?_⟩
    · refine ⟨(docs.reverse.dropWhile (meetsT t)).reverse, ?_⟩
      rw [← List.reverse_append, List.takeWhile_append_dropWhile, List.reverse_reverse]
    · intro d hd
      have hmem : d ∈ docs.reverse.takeWhile (meetsT t) := List.mem_reverse.mp hd
      have := List.mem_takeWhile_imp hmem
      simpa [meetsT] using this
    · simp [trailLen]
  · intro v hv hall
    have hpre : v.reverse <+: docs.reverse := by
      obtain ⟨t2, ht2⟩ := hv
      exact ⟨t2.reverse, by rw [← List.reverse_append, ht2]⟩
    have hallrev : ∀ x ∈ v.reverse, meetsT t x = true := by
      intro x hx
      simpa [meetsT] using hall x (List.mem_reverse.mp hx)
    have := isPrefix_all_length_le (meetsT t) v.reverse docs.reverse hpre hallrev
    simpa [trailLen] using this

theorem maxRunLen_exists_run (t : ℚ) (docs : List StreakDoc) :
    ∃ u, u <:+: docs ∧ (∀ d ∈ u, t ≤ d.score) ∧ u.length = maxRunLen t docs := by
  induction docs with
  | nil => exact ⟨[], ⟨[], [], rfl⟩, by simp, rfl⟩
  | cons d rest ih =>
      by_cases hd : t ≤ d.score
      · have hmx : maxRunLen t (d :: rest)
            = max (1 + headRunLen t rest) (maxRunLen t rest) := by
          simp [maxRunLen, hd]
        rcases le_total (maxRunLen t rest) (1 + headRunLen t rest) with hle | hle
        · refine ⟨d :: rest.takeWhile (meetsT t), ?_, ?_, ?_⟩
          · refine List.IsPrefix.isInfix ⟨rest.dropWhile (meetsT t), ?_⟩
            simp [List.takeWhile_append_dropWhile]
          · intro x hx
            rcases List.mem_cons.mp hx with rfl | hx2
            · exact hd
            · simpa [meetsT] using List.mem_takeWhile_imp hx2
          · rw [hmx, max_eq_left hle]
            simp only [List.length_cons, headRunLen]
            omega
        · obtain ⟨u, hu, hall, hlen⟩ := ih
          refine ⟨u, ?_, hall, ?_⟩
          · obtain ⟨s, t2, hst⟩ := hu
            exact ⟨d :: s, t2, by simp [hst]⟩
          · rw [hmx, max_eq_right hle, hlen]
      · have hmx : maxRunLen t (d :: rest) = maxRunLen t rest := by
          simp [maxRunLen, hd]
        obtain ⟨u, hu, hall, hlen⟩ := ih
        refine ⟨u, ?_, hall, by rw [hmx, hlen]⟩
        obtain ⟨s, t2, hst⟩ := hu
        exact ⟨d :: s, t2, by simp [hst]⟩

theorem run_all_length_le (t : ℚ) (docs : List StreakDoc) :
    ∀ v, v <:+: docs → (∀ d ∈ v, t ≤ d.score) → v.length ≤ maxRunLen t docs := by
  induction docs with
  | nil =>
      intro v hv _
      have := List.IsInfix.sublist hv
      simp [List.sublist_nil.mp this, maxRunLen]
  | cons d rest ih =>
      intro v hv hall
      rcases isInfix_cons_elim hv with hpre | hinf
      · cases v with
        | nil => simp [maxRunLen]
        | cons x w =>
            obtain ⟨t2, hxw⟩ := hpre
            simp only [List.cons_append] at hxw
            injection hxw with hxd hw
            have hd : t ≤ d.score := by
              rw [← hxd]
              exact hall x (List.mem_cons_self x w)
            have hwpre : w <+: rest := ⟨t2, hw⟩
            have hwall : ∀ y ∈ w, meetsT t y = true := by
              intro y hy
              simpa [meetsT] using hall y (List.mem_cons_of_mem x hy)
            have hwle := isPrefix_all_length_le (meetsT t) w rest hwpre hwall
            have hmx : maxRunLen t (d :: rest)
                = max (1 + headRunLen t rest) (maxRunLen t rest) := by
              simp [maxRunLen, hd]
            rw [hmx]
            have hwh : w.length ≤ headRunLen t rest := by
              simpa [headRunLen] using hwle
            calc (x :: w).length = w.length + 1 := by simp
              _ ≤ 1 + headRunLen t rest := by omega
              _ ≤ _ := le_max_left _ _
      · have := ih v hinf hall
        by_cases hd : t ≤ d.score
        · have hmx : maxRunLen t (d :: rest)
              = max (1 + headRunLen t rest) (maxRunLen t rest) := by
            simp [maxRunLen, hd]
          rw [hmx]
          exact le_trans this (le_max_right _ _)
        · have hmx : maxRunLen t (d :: rest) = maxRunLen t rest := by
            simp [maxRunLen, hd]
          rw [hmx]
          exact this

theorem calculateStreak_current_eq (docs : List StreakDoc) (t : ℚ)
    (hsorted : sortByDate docs = docs) :
    (calculateStreak docs t).current = trailLen t docs := by
  cases docs with
  | nil => rfl
  | cons d rest =>
      rw [show calculateStreak (d :: rest) t
          = streakLoop t (sortByDate (d :: rest)) 0 0 none none none none from rfl]
      rw [hsorted, streakLoop_current]
      by_cases hall : (d :: rest).all (meetsT t) = true
      · rw [if_pos hall]
        have : (d :: rest).takeWhile (meetsT t) = d :: rest := by
          exact all_takeWhile_eq_self _ _ (List.all_eq_true.mp hall)
        have hrev : ∀ x ∈ (d :: rest).reverse, meetsT t x = true := by
          intro x hx
          exact List.all_eq_true.mp hall x (List.mem_reverse.mp hx)
        rw [show trailLen t (d :: rest)
            = ((d :: rest).reverse.takeWhile (meetsT t)).length from rfl]
        rw [all_takeWhile_eq_self _ _ hrev]
        simp
      · rw [if_neg hall]

theorem calculateStreak_longest_eq (docs : List StreakDoc) (t : ℚ)
    (hsorted : sortByDate docs = docs) :
    (calculateStreak docs t).longest = maxRunLen t docs := by
  cases docs with
  | nil => rfl
  | cons d rest =>
      rw [show calculateStreak (d :: rest) t
          = streakLoop t (sortByDate (d :: rest)) 0 0 none none none none from rfl]
      rw [hsorted, streakLoop_longest]
      have hle := headRunLen_le_maxRunLen t (d :: rest)
      simp only [Nat.zero_add, Nat.max_def]
      split_ifs <;> omega

/-- C8.  Over a date-sorted document list, `calculateStreak`'s current
streak is the length of the maximal suffix of consecutive records
meeting the threshold (0 when the last record misses it), and its
longest streak is the maximum length over all runs of consecutive
records meeting the threshold; in particular scores
[80, 90, 60, 85, 95] at threshold 75 give current = longest = 2, and
[80, 90, 60] give current = 0 and longest = 2. -/
theorem calculateStreak_characterization (docs : List StreakDoc) (t : ℚ)
    (hsorted : sortByDate docs = docs) :
    ((∃ u, u <:+ docs ∧ (∀ d ∈ u, t ≤ d.score) ∧
        u.length = (calculateStreak docs t).current) ∧
      (∀ v, v <:+ docs → (∀ d ∈ v, t ≤ d.score) →
        v.length ≤ (calculateStreak docs t).current)) ∧
    ((∃ u, u <:+: docs ∧ (∀ d ∈ u, t ≤ d.score) ∧
        u.length = (calculateStreak docs t).longest) ∧
      (∀ v, v <:+: docs → (∀ d ∈ v, t ≤ d.score) →
        v.length ≤ (calculateStreak docs t).longest)) ∧
    (calculateStreak [⟨0, 80⟩, ⟨1, 90⟩, ⟨2, 60⟩, ⟨3, 85⟩, ⟨4, 95⟩] 75).current = 2 ∧
    (calculateStreak [⟨0, 80⟩, ⟨1, 90⟩, ⟨2, 60⟩, ⟨3, 85⟩, ⟨4, 95⟩] 75).longest = 2 ∧
    (calculateStreak [⟨0, 80⟩, ⟨1, 90⟩, ⟨2, 60⟩] 75).current = 0 ∧
    (calculateStreak [⟨0, 80⟩, ⟨1, 90⟩, ⟨2, 60⟩] 75).longest = 2 := by
  rw [calculateStreak_current_eq docs t hsorted, calculateStreak_longest_eq docs t hsorted]
  refine ⟨⟨(trailLen_max_suffix t docs).1, (trailLen_max_suffix t docs).2⟩,
    ⟨maxRunLen_exists_run t docs, run_all_length_le t docs⟩, ?_, ?_, ?_, ?_⟩
  · decide
  · decide
  · decide
  · decide

/-- C8 witness: the characterization applied to the concrete sorted
document list of the spec's example. -/
theorem calculateStreak_characterization_witness :
    ∃ u, u <:+ ([⟨0, 80⟩, ⟨1, 90⟩, ⟨2, 60⟩, ⟨3, 85⟩, ⟨4, 95⟩] : List StreakDoc) ∧
      (∀ d ∈ u, (75 : ℚ) ≤ d.score) ∧
      u.length = (calculateStreak [⟨0, 80⟩, ⟨1, 90⟩, ⟨2, 60⟩, ⟨3, 85⟩, ⟨4, 95⟩] 75).current := by
  exact (calculateStreak_characterization
    [⟨0, 80⟩, ⟨1, 90⟩, ⟨2, 60⟩, ⟨3, 85⟩, ⟨4, 95⟩] 75 (by decide)).1.1

theorem lookup_append_left {α : Type} (k : String) (a b : List (String × α)) (v : α)
    (h : List.lookup k a = some v) : List.lookup k (a ++ b) = some v := by
  induction a with
  | nil => cases h
  | cons p rest ih =>
      rw [List.cons_append, List.lookup]
      rw [List.lookup] at h
      cases hk : (k == p.1) with
      | true => rw [hk] at h; exact h
      | false => rw [hk] at h; exact ih h

theorem lookup_append_right {α : Type} (k : String) (a b : List (String × α))
    (h : List.lookup k a = none) : List.lookup k (a ++ b) = List.lookup k b := by
  induction a with
  | nil => rfl
  | cons p rest ih =>
      rw [List.cons_append, List.lookup]
      rw [List.lookup] at h
      cases hk : (k == p.1) with
      | true => rw [hk] at h; cases h
      | false => rw [hk] at h; exact ih h

theorem lookup_eq_none_of_not_key {α : Type} (k : String) (l : List (String × α))
    (h : ∀ p ∈ l, p.1 ≠ k) : List.lookup k l = none := by
  induction l with
  | nil => rfl
  | cons p rest ih =>
      rw [List.lookup]
      have hne : p.1 ≠ k := h p (List.mem_cons_self p rest)
      have hk : (k == p.1) = false := beq_eq_false_iff_ne.mpr (fun hc => hne hc.symm)
      rw [hk]
      exact ih (fun q hq => h q (List.mem_cons_of_mem p hq))

theorem lookup_filter_of_keeps {α : Type} (k : String) (l : List (String × α))
    (pred : String × α → Bool) (h : ∀ p ∈ l, p.1 = k → pred p = true) :
    List.lookup k (l.filter pred) = List.lookup k l := by
  induction l with
  | nil => rfl
  | cons p rest ih =>
      by_cases hk : p.1 = k
      · have hpred : pred p = true := h p (List.mem_cons_self p rest) hk
        rw [List.filter_cons, if_pos hpred, List.lookup, List.lookup]
        cases hkk : (k == p.1) with
        | true => rfl
        | false => exact ih (fun q hq hq2 => h q (List.mem_cons_of_mem p hq) hq2)
      · have hkk : (k == p.1) = false := beq_eq_false_iff_ne.mpr (fun hc => hk hc.symm)
        rw [List.filter_cons]
        cases hpred : pred p with
        | true =>
            rw [if_pos rfl, List.lookup, List.lookup, hkk]
            exact ih (fun q hq hq2 => h q (List.mem_cons_of_mem p hq) hq2)
        | false =>
            rw [if_neg (by simp), List.lookup, hkk]
            exact ih (fun q hq hq2 => h q (List.mem_cons_of_mem p hq) hq2)

/-- C9 counterexample.  The summary write is a set-with-merge, not a
full replace: a field present in the previously stored summary document
but absent from `toFirestore()`'s payload (here "streaks", which the
model class drops) survives the write, so the stored document does not
equal the newly computed summary. -/
theorem summary_full_replace_cex :
    lookupField (writeSleepSummary [("streaks", (1 : Int))]
        (sleepSummaryToFirestore 10 20 30 40 50 60 70 80)) "streaks" = some 1 ∧
    lookupField (sleepSummaryToFirestore (10 : Int) 20 30 40 50 60 70 80)
        "streaks" = none ∧
    writeSleepSummary [("streaks", (1 : Int))]
        (sleepSummaryToFirestore 10 20 30 40 50 60 70 80)
      ≠ sleepSummaryToFirestore 10 20 30 40 50 60 70 80 := by
  refine ⟨?_, ?_, ?_⟩ <;> decide

/-- C9 (amended).  The recompute write `.set(toFirestore(), merge true)`
overwrites exactly the eight fields `toFirestore()` emits with the
recomputed values, while every stored field outside that set survives
unchanged: a partial merge, not a full document replacement. -/
theorem summary_write_merge {α : Type} (stored : List (String × α))
    (u da wt mt bs ws imp lu : α) (k : String) :
    (k ∈ summaryFieldKeys →
      lookupField (writeSleepSummary stored
          (sleepSummaryToFirestore u da wt mt bs ws imp lu)) k
        = lookupField (sleepSummaryToFirestore u da wt mt bs ws imp lu) k) ∧
    (k ∉ summaryFieldKeys →
      lookupField (writeSleepSummary stored
          (sleepSummaryToFirestore u da wt mt bs ws imp lu)) k
        = lookupField stored k) := by
  constructor
  · intro hk
    simp only [summaryFieldKeys, List.mem_cons, List.not_mem_nil, or_false] at hk
    rcases hk with rfl | rfl | rfl | rfl | rfl | rfl | rfl | rfl <;>
      · apply lookup_append_left
        simp [sleepSummaryToFirestore, List.lookup]
  · intro hk
    have hkeys : ∀ p ∈ sleepSummaryToFirestore u da wt mt bs ws imp lu, p.1 ≠ k := by
      intro p hp
      simp only [sleepSummaryToFirestore, List.mem_cons, List.not_mem_nil,
        or_false] at hp
      rcases hp with rfl | rfl | rfl | rfl | rfl | rfl | rfl | rfl <;>
        · intro hc
          apply hk
          rw [← hc]
          simp [summaryFieldKeys]
    have hnone : List.lookup k (sleepSummaryToFirestore u da wt mt bs ws imp lu)
        = none := lookup_eq_none_of_not_key k _ hkeys
    show List.lookup k (setMergeDoc stored _) = List.lookup k stored
    rw [setMergeDoc, lookup_append_right k _ _ hnone]
    apply lookup_filter_of_keeps
    intro p hp hpk
    have hqs : ∀ q ∈ sleepSummaryToFirestore u da wt mt bs ws imp lu,
        ¬ (q.1 == p.1) = true := by
      intro q hq
      simp only [beq_iff_eq]
      rw [hpk]
      exact hkeys q hq
    rw [List.any_eq_false.mpr hqs]
    rfl

/-- C9 witness: the merge-write theorem at a concrete stored document
carrying a legacy field and a concrete recomputed payload. -/
theorem summary_write_merge_witness :
    lookupField (writeSleepSummary [("legacy", (5 : Int))]
        (sleepSummaryToFirestore 1 2 3 4 5 6 7 8)) "userId" = some 1 ∧
    lookupField (writeSleepSummary [("legacy", (5 : Int))]
        (sleepSummaryToFirestore 1 2 3 4 5 6 7 8)) "legacy" = some 5 := by
  have h1 := (summary_write_merge [("legacy", (5 : Int))] 1 2 3 4 5 6 7 8 "userId").1
    (by decide)
  have h2 := (summary_write_merge [("legacy", (5 : Int))] 1 2 3 4 5 6 7 8 "legacy").2
    (by decide)
  constructor
  · rw [h1]; decide
  · rw [h2]; decide

theorem lookup_setDaily_self (store : SleepStore) (k : String) (doc : SleepDoc) :
    lookupDaily (setDaily store k doc) k = some doc := by
  simp [lookupDaily, setDaily, List.lookup]

/-- C1.  When a Daily Sleep Record already exists at the day being
upserted, the merge-upsert stores the freshly mapped score and metrics
while carrying the existing record's tags and notes forward exactly;
they are never reset to the empty defaults the write is staged with. -/
theorem sync_preserves_tags_notes (store : SleepStore) (m : MappedSleepRecord)
    (existing : SleepDoc) (hex : lookupDaily store m.dateId = some existing) :
    lookupDaily (upsertDaily store m) m.dateId
      = some { userId := m.userId, dateId := m.dateId, ouraScore := m.ouraScore,
               metrics := m.metrics, tags := existing.tags,
               notes := existing.notes } := by
  rw [upsertDaily, lookup_setDaily_self]
  simp [buildSleepDoc, hex]

/-- C1 witness: the preservation theorem at the spec's example — an
existing record for 2024-01-01 with tags ["great"] and notes
"felt rested" and a new mapped record with a different score and
metrics. -/
theorem sync_preserves_tags_notes_witness :
    lookupDaily
      (upsertDaily
        [("2024-01-01",
          { userId := "u1", dateId := "2024-01-01", ouraScore := 72,
            metrics := ⟨100, 1, 2, 3, 4, 5, 6, 7, 8, 9⟩,
            tags := ["great"], notes := "felt rested" })]
        { userId := "u1", dateId := "2024-01-01", ouraScore := 88,
          metrics := ⟨200, 11, 12, 13, 14, 15, 16, 17, 18, 19⟩,
          sourceType := "oura_sleep_v2", sourceId := none })
      "2024-01-01"
      = some { userId := "u1", dateId := "2024-01-01", ouraScore := 88,
               metrics := ⟨200, 11, 12, 13, 14, 15, 16, 17, 18, 19⟩,
               tags := ["great"], notes := "felt rested" } := by
  exact sync_preserves_tags_notes
    [("2024-01-01",
      { userId := "u1", dateId := "2024-01-01", ouraScore := 72,
        metrics := ⟨100, 1, 2, 3, 4, 5, 6, 7, 8, 9⟩,
        tags := ["great"], notes := "felt rested" })]
    { userId := "u1", dateId := "2024-01-01", ouraScore := 88,
      metrics := ⟨200, 11, 12, 13, 14, 15, 16, 17, 18, 19⟩,
      sourceType := "oura_sleep_v2", sourceId := none }
    { userId := "u1", dateId := "2024-01-01", ouraScore := 72,
      metrics := ⟨100, 1, 2, 3, 4, 5, 6, 7, 8, 9⟩,
      tags := ["great"], notes := "felt rested" }
    (by decide)

/-- C4.  If the token refresh fails during a sync, `tokenInvalid` is
set and persisted and the run answers needs-reconnect; and any
sync run entered with `tokenInvalid = true` returns the skip/reconnect
answer without a single provider call (no refresh, no fetch) and
without touching the integration record — in particular every run
after the failed-refresh run is such a skip. -/
theorem token_invalid_skips_sync (env env2 : SyncEnv) (userId userId2 : String)
    (integ : OuraIntegration) (store store2 : SleepStore)
    (hconn : integ.connected = true) (hnotinv : integ.tokenInvalid = false)
    (hat : integ.accessToken.isNone = false) (hrt : integ.refreshToken.isNone = false)
    (hexp : tokenExpired integ env.nowMs = true)
    (hrf : env.refreshOutcome = none) :
    syncOuraDataModel env userId integ store
      = ⟨.refreshFailed, { integ with tokenInvalid := true }, store, 1, 0⟩ ∧
    (∀ (env3 : SyncEnv) (u3 : String) (i3 : OuraIntegration) (s3 : SleepStore),
      i3.tokenInvalid = true →
      syncOuraDataModel env3 u3 i3 s3 = ⟨.noConnection true, i3, s3, 0, 0⟩) ∧
    syncOuraDataModel env2 userId2
        (syncOuraDataModel env userId integ store).integ store2
      = ⟨.noConnection true, { integ with tokenInvalid := true }, store2, 0, 0⟩ := by
  have h1 : syncOuraDataModel env userId integ store
      = ⟨.refreshFailed, { integ with tokenInvalid := true }, store, 1, 0⟩ := by
    simp [syncOuraDataModel, hconn, hnotinv, hat, hrt, hexp, hrf]
  have h2 : ∀ (env3 : SyncEnv) (u3 : String) (i3 : OuraIntegration) (s3 : SleepStore),
      i3.tokenInvalid = true →
      syncOuraDataModel env3 u3 i3 s3 = ⟨.noConnection true, i3, s3, 0, 0⟩ := by
    intro env3 u3 i3 s3 hinv
    simp [syncOuraDataModel, hinv]
  refine ⟨h1, h2, ?_⟩
  rw [h1]
  exact h2 env2 userId2 _ store2 rfl

/-- C4 witness: the skip theorem at a concrete integration record whose
token has expired and whose refresh fails. -/
theorem token_invalid_skips_sync_witness :
    syncOuraDataModel ⟨1000, 0, none, .ok [], fun _ => true, id⟩ "u"
        { connected := true, tokenInvalid := false, accessToken := some "at",
          refreshToken := some "rt", expiresAt := some 500, lastRefreshed := none,
          lastSyncDate := none } []
      = ⟨.refreshFailed,
          { connected := true, tokenInvalid := true, accessToken := some "at",
            refreshToken := some "rt", expiresAt := some 500, lastRefreshed := none,
            lastSyncDate := none }, [], 1, 0⟩ ∧
    syncOuraDataModel ⟨2000, 0, none, .ok [], fun _ => true, id⟩ "u"
        { connected := true, tokenInvalid := true, accessToken := some "at",
          refreshToken := some "rt", expiresAt := some 500, lastRefreshed := none,
          lastSyncDate := none } []
      = ⟨.noConnection true,
          { connected := true, tokenInvalid := true, accessToken := some "at",
            refreshToken := some "rt", expiresAt := some 500, lastRefreshed := none,
            lastSyncDate := none }, [], 0, 0⟩ := by
  have h := token_invalid_skips_sync ⟨1000, 0, none, .ok [], fun _ => true, id⟩
      ⟨2000, 0, none, .ok [], fun _ => true, id⟩ "u" "u"
      { connected := true, tokenInvalid := false, accessToken := some "at",
        refreshToken := some "rt", expiresAt := some 500, lastRefreshed := none,
        lastSyncDate := none } [] []
      rfl rfl rfl rfl (by decide) rfl
  exact ⟨h.1, h.2.1 ⟨2000, 0, none, .ok [], fun _ => true, id⟩ "u" _ [] rfl⟩

theorem runBatches_processed (ck : ℕ → Bool) (bs : List (List MappedSleepRecord)) :
    ∀ (i : ℕ) (s : SleepStore) (p f : ℕ),
      (runBatches ck bs i ⟨s, p, f⟩).processed = p + committedCount ck bs i := by
  induction bs with
  | nil => intro i s p f; simp [runBatches, committedCount]
  | cons b rest ih =>
      intro i s p f
      cases hc : ck i with
      | true =>
          have hstep : runBatches ck (b :: rest) i ⟨s, p, f⟩
              = runBatches ck rest (i + 1) ⟨commitBatch s b, p + b.length, f⟩ := by
            simp [runBatches, hc]
          have hcc : committedCount ck (b :: rest) i
              = b.length + committedCount ck rest (i + 1) := by
            simp [committedCount, hc]
          rw [hstep, ih, hcc]
          omega
      | false =>
          have hstep : runBatches ck (b :: rest) i ⟨s, p, f⟩
              = runBatches ck rest (i + 1) ⟨s, p + b.length - b.length, f + b.length⟩ := by
            simp [runBatches, hc]
          have hcc : committedCount ck (b :: rest) i
              = committedCount ck rest (i + 1) := by
            simp [committedCount, hc]
          rw [hstep, ih, hcc]
          omega

theorem runBatches_failed (ck : ℕ → Bool) (bs : List (List MappedSleepRecord)) :
    ∀ (i : ℕ) (s : SleepStore) (p f : ℕ),
      (runBatches ck bs i ⟨s, p, f⟩).failed = f + failedCount ck bs i := by
  induction bs with
  | nil => intro i s p f; simp [runBatches, failedCount]
  | cons b rest ih =>
      intro i s p f
      cases hc : ck i with
      | true =>
          have hstep : runBatches ck (b :: rest) i ⟨s, p, f⟩
              = runBatches ck rest (i + 1) ⟨commitBatch s b, p + b.length, f⟩ := by
            simp [runBatches, hc]
          have hfc : failedCount ck (b :: rest) i = failedCount ck rest (i + 1) := by
            simp [failedCount, hc]
          rw [hstep, ih, hfc]
      | false =>
          have hstep : runBatches ck (b :: rest) i ⟨s, p, f⟩
              = runBatches ck rest (i + 1) ⟨s, p + b.length - b.length, f + b.length⟩ := by
            simp [runBatches, hc]
          have hfc : failedCount ck (b :: rest) i
              = b.length + failedCount ck rest (i + 1) := by
            simp [failedCount, hc]
          rw [hstep, ih, hfc]
          omega

theorem counts_sum (ck : ℕ → Bool) (bs : List (List MappedSleepRecord)) :
    ∀ i, committedCount ck bs i + failedCount ck bs i = (bs.map List.length).sum := by
  induction bs with
  | nil => intro i; simp [committedCount, failedCount]
  | cons b rest ih =>
      intro i
      have := ih (i + 1)
      cases hc : ck i with
      | true =>
          have hcc : committedCount ck (b :: rest) i
              = b.length + committedCount ck rest (i + 1) := by
            simp [committedCount, hc]
          have hfc : failedCount ck (b :: rest) i = failedCount ck rest (i + 1) := by
            simp [failedCount, hc]
          rw [hcc, hfc, List.map_cons, List.sum_cons]
          omega
      | false =>
          have hcc : committedCount ck (b :: rest) i
              = committedCount ck rest (i + 1) := by
            simp [committedCount, hc]
          have hfc : failedCount ck (b :: rest) i
              = b.length + failedCount ck rest (i + 1) := by
            simp [failedCount, hc]
          rw [hcc, hfc, List.map_cons, List.sum_cons]
          omega

theorem chunkGo_sum {α : Type} :
    ∀ (fuel : ℕ) (l : List α), l.length ≤ fuel →
      ((chunkGo fuel l).map List.length).sum = l.length := by
  intro fuel
  induction fuel with
  | zero =>
      intro l hl
      rw [Nat.le_zero] at hl
      rw [List.length_eq_zero] at hl
      subst hl
      rfl
  | succ n ih =>
      intro l hl
      cases l with
      | nil => rfl
      | cons x xs =>
          rw [show chunkGo (n + 1) (x :: xs) = (x :: xs).take 50 :: chunkGo n ((x :: xs).drop 50)
            from rfl]
          rw [List.map_cons, List.sum_cons, ih ((x :: xs).drop 50)
            (by simp only [List.length_drop, List.length_cons] at hl ⊢; omega)]
          simp only [List.length_take, List.length_drop, List.length_cons]
          omega

theorem chunk50_sum {α : Type} (l : List α) :
    ((chunk50 l).map List.length).sum = l.length :=
  chunkGo_sum l.length l (le_refl _)

theorem filterMap_all_isSome {α β : Type} (f : α → Option β) (l : List α)
    (h : ∀ x ∈ l, (f x).isSome = true) : (l.filterMap f).length = l.length := by
  induction l with
  | nil => rfl
  | cons x xs ih =>
      have hx := h x (List.mem_cons_self x xs)
      cases hfx : f x with
      | none => rw [hfx] at hx; cases hx
      | some y =>
          rw [List.filterMap_cons, hfx]
          simp only [List.length_cons]
          rw [ih (fun z hz => h z (List.mem_cons_of_mem x hz))]

/-- C7.  In the batched merge-upsert phase, a batch whose commit fails
contributes its record count to `failed` and not to `processed`, later
batches still run and are counted, processed plus failed equals the
number of records entering the phase (which equals the fetched count
when every fetched record maps), and the post-loop bookkeeping still
advances `lastSyncDate` (and clears `tokenInvalid`). -/
theorem batch_failure_isolation (commitOk : ℕ → Bool)
    (mapped : List MappedSleepRecord) (store : SleepStore)
    (raw : List RawOuraRecord) (u : String) (integ : OuraIntegration) (now : Int) :
    (runBatches commitOk (chunk50 mapped) 0 ⟨store, 0, 0⟩).processed
        = committedCount commitOk (chunk50 mapped) 0 ∧
    (runBatches commitOk (chunk50 mapped) 0 ⟨store, 0, 0⟩).failed
        = failedCount commitOk (chunk50 mapped) 0 ∧
    committedCount commitOk (chunk50 mapped) 0
        + failedCount commitOk (chunk50 mapped) 0 = mapped.length ∧
    ((∀ r ∈ raw, (mapOuraV2Record u r).isSome = true) →
      (mapOuraDataToSleepDataV2 raw u).length = raw.length) ∧
    (finishSync integ now).lastSyncDate = some now ∧
    (finishSync integ now).tokenInvalid = false := by
  refine ⟨?_, ?_, ?_, ?_, rfl, rfl⟩
  · rw [runBatches_processed]
    omega
  · rw [runBatches_failed]
    omega
  · rw [counts_sum, chunk50_sum]
  · intro h
    exact filterMap_all_isSome _ _ h

/-- C7 witness: the isolation theorem applied with a concrete failing
batch pattern and a concrete raw record that maps. -/
theorem batch_failure_isolation_witness :
    ((∀ r ∈ [({ day := some "2024-01-01", score := some 80 } : RawOuraRecord)],
        (mapOuraV2Record "u" r).isSome = true) →
      (mapOuraDataToSleepDataV2
          [({ day := some "2024-01-01", score := some 80 } : RawOuraRecord)] "u").length
        = 1) ∧
    (mapOuraDataToSleepDataV2
        [({ day := some "2024-01-01", score := some 80 } : RawOuraRecord)] "u").length
      = 1 := by
  have h := (batch_failure_isolation (fun i => i != 1) [] []
      [{ day := some "2024-01-01", score := some 80 }] "u"
      ⟨false, false, none, none, none, none, none⟩ 0).2.2.2.1
  exact ⟨fun _ => h (by decide), h (by decide)⟩

theorem fdiv_decomp (x : Int) :
    msPerDay * dayIndex x + x.fmod msPerDay = x ∧
    0 ≤ x.fmod msPerDay ∧ x.fmod msPerDay < msPerDay := by
  refine ⟨Int.fdiv_add_fmod x msPerDay, ?_, ?_⟩
  · exact Int.fmod_nonneg' x (by norm_num [msPerDay])
  · exact Int.fmod_lt_of_pos x (by norm_num [msPerDay])

theorem dayIndex_dayEndMs (t : Int) : dayIndex (dayEndMs t) = dayIndex t := by
  have h1 := fdiv_decomp t
  have h2 := fdiv_decomp (dayEndMs t)
  have h3 : dayEndMs t = dayIndex t * msPerDay + (msPerDay - 1) := rfl
  simp only [msPerDay] at h1 h2 h3
  omega

theorem dayIndex_add_day (t : Int) : dayIndex (t + msPerDay) = dayIndex t + 1 := by
  have h1 := fdiv_decomp t
  have h2 := fdiv_decomp (t + msPerDay)
  simp only [msPerDay] at h1 h2 ⊢
  omega

theorem dayIndex_dayStartMs_add_day (t : Int) :
    dayIndex (dayStartMs (t + msPerDay)) = dayIndex t + 1 := by
  have h1 := fdiv_decomp (t + msPerDay)
  have h2 : dayStartMs (t + msPerDay) = dayIndex (t + msPerDay) * msPerDay := rfl
  have h3 := fdiv_decomp (dayStartMs (t + msPerDay))
  have h4 := dayIndex_add_day t
  simp only [msPerDay] at h1 h2 h3 h4 ⊢
  omega

/-- C6 counterexample.  A reachable boundary input violating the
claimed `max(lastSyncDate + 1 day, now − 6 months)` formula: with now
on day 19737 (2024-01-15 UTC) and the six-months-ago day start at day
19553 (2023-07-15 UTC), a `lastSyncDate` lying exactly on that day
start is not strictly after it, so the code starts the window on day
19553 itself — one day earlier than the claimed
`max(dayOf(lastSyncDate) + 1, dayOf(now − 6 months)) = 19554`. -/
theorem sync_window_cex :
    computeSyncWindow (19737 * msPerDay + 43200000) (19553 * msPerDay)
        (some (19553 * msPerDay)) = .window 19553 19737 ∧
    (19553 : Int) ≠ max (dayIndex (19553 * msPerDay) + 1) (dayIndex (19553 * msPerDay)) := by
  refine ⟨?_, ?_⟩ <;> decide

/-- C6 (amended).  With `six` the start-of-day instant six calendar
months before now (`six ≤ dayStartMs now`): a null `lastSyncDate`
fetches from day `dayIndex six` through today; a `lastSyncDate` at or
before `six` also starts at `dayIndex six`; a `lastSyncDate` strictly
after `six` starts at the day after it, short-circuiting to an
up-to-date answer (with no provider fetch) exactly when that start day
is past today.  Whenever `lastSyncDate ≠ six` the start day agrees with
`max(dayOf(lastSyncDate) + 1, dayIndex six)`; at `lastSyncDate = six`
exactly (the counterexample) the code starts one day earlier than that
formula.  The spec example holds: lastSyncDate on day 19732
(2024-01-10) with now on day 19737 (2024-01-15) gives the window
19733..19737 (2024-01-11 through 2024-01-15). -/
theorem sync_window_selection (now six : Int) (env : SyncEnv) (u : String)
    (integ : OuraIntegration) (store : SleepStore) (rc : ℕ)
    (hsix : dayStartMs six = six) (hord : six ≤ dayStartMs now) :
    (computeSyncWindow now six none = .window (dayIndex six) (dayIndex now)) ∧
    (∀ ls, ls ≤ six →
      computeSyncWindow now six (some ls) = .window (dayIndex six) (dayIndex now)) ∧
    (∀ ls, six < ls → dayIndex ls + 1 ≤ dayIndex now →
      computeSyncWindow now six (some ls)
        = .window (dayIndex ls + 1) (dayIndex now)) ∧
    (∀ ls, six < ls → dayIndex now < dayIndex ls + 1 →
      computeSyncWindow now six (some ls) = .upToDate) ∧
    (∀ ls a b, ls ≠ six → computeSyncWindow now six (some ls) = .window a b →
      a = max (dayIndex ls + 1) (dayIndex six) ∧ b = dayIndex now) ∧
    (computeSyncWindow env.nowMs env.sixMonthsAgoStartMs integ.lastSyncDate
        = .upToDate →
      syncAfterToken env u integ store rc = ⟨.upToDate, integ, store, rc, 0⟩) ∧
    computeSyncWindow (19737 * msPerDay + 43200000) (19553 * msPerDay)
        (some (19732 * msPerDay + 7777)) = .window 19733 19737 ∧
    computeSyncWindow (19737 * msPerDay + 43200000) (19553 * msPerDay) none
        = .window 19553 19737 := by
  have hnow := fdiv_decomp now
  have hsix2 := fdiv_decomp six
  refine ⟨?_, ?_, ?_, ?_, ?_, ?_, ?_, ?_⟩
  · have hcond : ¬ dayEndMs now < six := by
      simp only [dayEndMs, dayStartMs, msPerDay] at hord ⊢
      omega
    simp only [computeSyncWindow, if_neg hcond, dayIndex_dayEndMs]
  · intro ls hls
    have hnlt : ¬ six < ls := not_lt.mpr hls
    have hcond : ¬ dayEndMs now < six := by
      simp only [dayEndMs, dayStartMs, msPerDay] at hord ⊢
      omega
    simp only [computeSyncWindow, hnlt, if_false, if_neg hcond, dayIndex_dayEndMs]
  · intro ls hls hle
    have hstart := dayIndex_dayStartMs_add_day ls
    have hdecS := fdiv_decomp (dayStartMs (ls + msPerDay))
    have hcond : ¬ dayEndMs now < dayStartMs (ls + msPerDay) := by
      simp only [dayEndMs, dayStartMs, msPerDay] at hle hstart hdecS ⊢
      simp only [msPerDay] at hnow
      omega
    simp only [computeSyncWindow, hls, if_true, if_neg hcond, dayIndex_dayEndMs,
      hstart]
  · intro ls hls hgt
    have hstart := dayIndex_dayStartMs_add_day ls
    have hdecS := fdiv_decomp (dayStartMs (ls + msPerDay))
    have hcond : dayEndMs now < dayStartMs (ls + msPerDay) := by
      simp only [dayEndMs, dayStartMs, msPerDay] at hgt hstart hdecS ⊢
      simp only [msPerDay] at hnow
      omega
    simp only [computeSyncWindow, hls, if_true, if_pos hcond]
  · intro ls a b hne h
    have hdecL := fdiv_decomp ls
    by_cases hls : six < ls
    · have hstart := dayIndex_dayStartMs_add_day ls
      have hmax : max (dayIndex ls + 1) (dayIndex six) = dayIndex ls + 1 := by
        apply max_eq_left
        simp only [dayStartMs, msPerDay] at hsix
        simp only [msPerDay] at hsix2 hdecL ⊢
        omega
      simp only [computeSyncWindow, hls, if_true] at h
      by_cases hcond : dayEndMs now < dayStartMs (ls + msPerDay)
      · rw [if_pos hcond] at h
        cases h
      · rw [if_neg hcond] at h
        injection h with h1 h2
        rw [hmax, ← h1, ← h2, hstart, dayIndex_dayEndMs]
        exact ⟨rfl, rfl⟩
    · have hlt : ls < six := lt_of_le_of_ne (not_lt.mp hls) hne
      have hmax : max (dayIndex ls + 1) (dayIndex six) = dayIndex six := by
        apply max_eq_right
        simp only [dayStartMs, msPerDay] at hsix
        simp only [msPerDay] at hsix2 hdecL ⊢
        omega
      simp only [computeSyncWindow, hls, if_false] at h
      by_cases hcond : dayEndMs now < six
      · rw [if_pos hcond] at h
        cases h
      · rw [if_neg hcond] at h
        injection h with h1 h2
        rw [hmax, ← h1, ← h2, dayIndex_dayEndMs]
        exact ⟨rfl, rfl⟩
  · intro h
    simp only [syncAfterToken, h]
  · decide
  · decide

/-- C6 witness: the amended window theorem applied at the concrete
clock of the spec example (now = noon on day 19737, six-months-ago day
start = day 19553, lastSyncDate inside day 19732). -/
theorem sync_window_selection_witness :
    computeSyncWindow (19737 * msPerDay + 43200000) (19553 * msPerDay)
        (some (19732 * msPerDay + 7777))
      = .window (dayIndex (19732 * msPerDay + 7777) + 1)
          (dayIndex (19737 * msPerDay + 43200000)) := by
  exact (sync_window_selection (19737 * msPerDay + 43200000) (19553 * msPerDay)
      ⟨0, 0, none, .ok [], fun _ => true, id⟩ "u"
      ⟨false, false, none, none, none, none, none⟩ [] 0
      (by decide) (by decide)).2.2.1 (19732 * msPerDay + 7777) (by decide) (by decide)

end SleepBackend
